import Mathlib

/-!
# Verification of the cmu-db-rs storage engine core

A shallow embedding, in Lean 4, of the core data structures of the
`cmu-db-rs` repository (an LRU-K replacer, a buffer pool manager over
page frames, and a persistent extendible hash table made of
header / directory / bucket pages), together with proofs and refutations
of the specification's claims about them.

Modelling conventions, used throughout:

* Rust machine integers become `Nat`; where wrap-around of a `usize`
  matters (`fetch_add` / `fetch_sub`, `as usize` casts) the reduction
  `% 2^64` is written out explicitly (`USIZE_MOD`).
* `Vec<T>` becomes `List T`.  Rust's panicking index `v[i]` is embedded
  with `List.set` / `List.getD`, which are total; every theorem below is
  either stated at states where the source stays in bounds, or the
  out-of-bounds behaviour is irrelevant to the property at hand (a Rust
  panic is never a *success*, and all success-conditioned theorems are
  conditioned on the embedded operation returning a value).
* `HashMap<K, V>` (the bucket page payload, the replacer's node store)
  becomes an association list; operations preserve key-uniqueness and
  no claim depends on iteration order except where noted (the replacer's
  `evict`, where the extracted maximum *value* is order-independent and
  minima are taken first-wins, as Rust's `min_by` does).
* Fallible operations return `Option` / `Except`; a Rust `panic!`
  (`unwrap` on `None`, out-of-bounds index, failed `bincode` decode) and
  a blocked `recv()` are embedded as `none` — they are never a success.
* Page bytes: the spec fixes `decode (encode x) = x` for the stable
  binary codec, so pages are stored in decoded form (`PageData`), and
  `to_bytes` / `from_bytes` pairs cancel.
* The key hash (`hash_string`, a `DefaultHasher` folded into `u32`) is
  an opaque function and is taken as a parameter `hash : K → Nat`;
  every theorem holds for an arbitrary hash function.
* Bit masking `h & ((1 << n) - 1)` is written `h % 2^n`, the same
  function on `Nat`.
-/

/-- `usize::MAX` on the 64-bit targets the crate builds for. -/
def USIZE_MAX : Nat := 2 ^ 64 - 1

/-- The modulus of `usize` arithmetic. -/
def USIZE_MOD : Nat := 2 ^ 64

/-! ## LRU-K replacer (`src/lru_k_replacer.rs`)

`LruKNode` keeps the last `k` access timestamps, newest at the front of
`history` (the Rust `VecDeque` is pushed at the front).  Timestamps are
nanosecond `Nat`s; `evict` receives the current time `now` as an explicit
argument in place of the Rust calls to `get_now_ts()`. -/

structure LruKNode where
  k : Nat
  frame_id : Nat
  is_evictable : Bool
  history : List Nat
  deriving Repr, DecidableEq

namespace LruKNode

/-- `LruKNode::new`: one access recorded at creation time `now`. -/
def new (frame_id : Nat) (k : Nat) (now : Nat) : LruKNode :=
  { k := k, frame_id := frame_id, is_evictable := false, history := [now] }

/-- `LruKNode::record_access`: push a fresh timestamp at the front and
drop the oldest sample once the history exceeds `k`. -/
def record_access (n : LruKNode) (now : Nat) : LruKNode :=
  let h := now :: n.history
  { n with history := if h.length > n.k then h.dropLast else h }

/-- `LruKNode::k_distance`: `None` when fewer than `k` samples are held,
otherwise `now` minus the `k`-th most recent access (the back of the
deque), cast `as usize`. -/
def k_distance (n : LruKNode) (now : Nat) : Option Nat :=
  if n.history.length < n.k then none
  else some ((now - n.history.getLastD 0) % USIZE_MOD)

/-- The Rust comparisons use `k_distance().unwrap_or(usize::MAX)`. -/
def k_distance_or_max (n : LruKNode) (now : Nat) : Nat :=
  (n.k_distance now).getD USIZE_MAX

/-- `LruKNode::least_recent_access`: `history[0]`, i.e. (despite the
name) the *most recent* access timestamp. -/
def least_recent_access (n : LruKNode) : Nat :=
  n.history.headD 0

end LruKNode

/-- The replacer's node store, `HashMap<FrameId, LruKNode>`, as an
association list (one entry per frame id). -/
abbrev NodeStore := List (Nat × LruKNode)

/-- `Iterator::min_by` on `(frame_id, timestamp)` pairs comparing the
timestamp: the first element attaining the minimum, as Rust's `min_by`
returns the first of equal elements. -/
def min_by_ts (l : List (Nat × Nat)) : Option (Nat × Nat) :=
  l.foldl (fun acc x =>
    match acc with
    | none => some x
    | some a => if x.2 < a.2 then some x else acc) none

/-- `LruKReplacer::evict`, with the current time passed in for
`get_now_ts()`.  Faithful to the source, including its first scan: the
longest backward k-distance is taken over **all** nodes of the store —
`max_by` is applied before any `evictable` filtering — and only the
second scan (building `nodes_with_longest_k_distance`) filters on
`evictable`. -/
def lru_evict (store : NodeStore) (now : Nat) : Option Nat :=
  match store with
  | [] => none
  | e :: es =>
    let longest_k_distance :=
      (es.map (fun x => x.2.k_distance_or_max now)).foldl max
        (e.2.k_distance_or_max now)
    let nodes_with_longest :=
      store.filter (fun x =>
        x.2.is_evictable && (x.2.k_distance_or_max now == longest_k_distance))
    match nodes_with_longest with
    | [single] => some single.1
    | l => (min_by_ts (l.map (fun x => (x.1, x.2.least_recent_access)))).map
        (fun p => p.1)

/-- `LruKReplacer::record_access` (the `access_type` argument is ignored
by the source). -/
def lru_record_access (store : NodeStore) (k : Nat) (frame_id : Nat)
    (now : Nat) : NodeStore :=
  if store.any (fun e => e.1 == frame_id) then
    store.map (fun e =>
      if e.1 == frame_id then (e.1, e.2.record_access now) else e)
  else
    store ++ [(frame_id, LruKNode.new frame_id k now)]

/-- `LruKReplacer::remove`. -/
def lru_remove (store : NodeStore) (frame_id : Nat) : NodeStore :=
  store.filter (fun e => e.1 != frame_id)

/-- `LruKReplacer::set_evictable` (silent no-op on an unknown frame). -/
def lru_set_evictable (store : NodeStore) (frame_id : Nat)
    (b : Bool) : NodeStore :=
  store.map (fun e => if e.1 == frame_id then (e.1, { e.2 with is_evictable := b }) else e)

/-- A node store exhibiting the missing-filter defect of `evict`: with
`k = 2`, frame `1` has a single access (backward k-distance `+∞`) and is
**not** evictable; frame `2` has two accesses (finite k-distance) and
**is** evictable. -/
def c2_store : NodeStore :=
  [ (1, { k := 2, frame_id := 1, is_evictable := false, history := [10] }),
    (2, { k := 2, frame_id := 2, is_evictable := true, history := [30, 20] }) ]

/-- C2, the code's behaviour at `c2_store` at time `100`: `evict`
returns `none` although an evictable node (frame `2`) exists, because
the benchmark "longest k-distance" is computed over the non-evictable
frame `1` as well. -/
theorem lru_evict_c2_failing : lru_evict c2_store 100 = none ∧
    c2_store.any (fun e => e.2.is_evictable) = true := by
  constructor <;> decide

/-! ## Page frames (`src/page.rs`)

`Page` is an in-memory frame: optional owning page id, byte buffer,
pin counter and dirty flag.  `pin`/`unpin` are `AtomicUsize`
`fetch_add`/`fetch_sub`, hence wrap modulo `2^64`; the source has no
underflow assertion. -/

/-- `PAGE_SIZE` from `src/page.rs`. -/
def PAGE_SIZE : Nat := 4096

structure Page where
  id : Option Nat
  data : List Nat
  pin_count : Nat
  is_dirty : Bool

namespace Page

/-- `Page::new`. -/
def new : Page :=
  { id := none, data := List.replicate PAGE_SIZE 0, pin_count := 0, is_dirty := false }

/-- `Page::reset`: clear the id, zero the pin count and dirty flag,
zero the data. -/
def reset (_p : Page) : Page := new

/-- `Page::pin`: `fetch_add(1)` on a `usize`. -/
def pin (p : Page) : Page :=
  { p with pin_count := (p.pin_count + 1) % USIZE_MOD }

/-- `Page::unpin`: `fetch_sub(1)` on a `usize`; on a zero count this
wraps around to `usize::MAX`. -/
def unpin (p : Page) : Page :=
  { p with pin_count := (p.pin_count + USIZE_MAX) % USIZE_MOD }

/-- `Page::is_pinned`: `pin_count > 0`. -/
def is_pinned (p : Page) : Bool :=
  p.pin_count != 0

/-- `Page::set_dirty` — an unconditional store of the argument. -/
def set_dirty (p : Page) (b : Bool) : Page :=
  { p with is_dirty := b }

/-- `Page::set_id`. -/
def set_id (p : Page) (i : Nat) : Page :=
  { p with id := some i }

end Page

/-! ## Buffer pool manager (`src/buffer_pool_manager.rs`)

State: the frame vector, the free list (`Vec`, popped from the back),
the LRU-K replacer, the page table (`DashMap<PageId, FrameId>`, embedded
as a function), and `next_page_id`.  A clock `now` supplies the
timestamps the replacer draws from `get_now_ts()`, bumped at each
recorded access (the spec requires strictly monotonic timestamps).

In this source snapshot every `disk_scheduler.schedule_read` /
`schedule_write` call is commented out while the callback `recv()`
remains, so each path that reaches a `recv()` blocks forever; those
paths are embedded as `none` (no successful return).  In particular a
fetch of a *non-resident* page never returns, and `new_page` never
returns when the victim frame is dirty. -/

structure LruKReplacer where
  num_of_frames : Nat
  k : Nat
  node_store : NodeStore

structure BufferPoolManager where
  pages : List Page
  free_list : List Nat
  replacer : LruKReplacer
  pages_map : Nat → Option Nat
  next_page_id : Nat
  now : Nat

namespace BufferPoolManager

/-- `BufferPoolManager::new`: `pool_size` fresh frames, free list
`[0, …, pool_size-1]`, empty replacer and page table. -/
def new (pool_size : Nat) (replacer_k : Nat) : BufferPoolManager :=
  { pages := List.replicate pool_size Page.new
    free_list := List.range pool_size
    replacer := { num_of_frames := pool_size, k := replacer_k, node_store := [] }
    pages_map := fun _ => none
    next_page_id := 0
    now := 0 }

/-- `BufferPoolManager::allocate_page`: increment `next_page_id` and
return it (the first allocated id is 1). -/
def allocate_page (st : BufferPoolManager) : BufferPoolManager × Nat :=
  ({ st with next_page_id := st.next_page_id + 1 }, st.next_page_id + 1)

/-- `BufferPoolManager::new_page`.  Returns the updated pool, the new
page id, and the frame index backing the returned write guard.
`free_list.pop()` takes the *last* element; on a miss the replacer is
consulted.  The dirty-victim writeback path blocks (see above) and the
`pages.get(frame_id).unwrap()` panic is `none`.  Note: no call to
`Page::pin` appears anywhere on this path in the source. -/
def new_page (st : BufferPoolManager) : Option (BufferPoolManager × Nat × Nat) :=
  let picked : Option (Nat × List Nat) :=
    match st.free_list.getLast? with
    | some f => some (f, st.free_list.dropLast)
    | none => (lru_evict st.replacer.node_store st.now).map (fun f => (f, st.free_list))
  match picked with
  | none => none
  | some (frame_id, fl) =>
    let (st, page_id) := allocate_page st
    match st.pages.get? frame_id with
    | none => none
    | some page =>
      if page.is_dirty then none
      else
        let page := (page.reset).set_id page_id
        let store :=
          lru_set_evictable
            (lru_record_access st.replacer.node_store st.replacer.k frame_id st.now)
            frame_id false
        some
          ({ st with
              pages := st.pages.set frame_id page
              free_list := fl
              pages_map := fun q => if q = page_id then some frame_id else st.pages_map q
              replacer := { st.replacer with node_store := store }
              now := st.now + 1 }, page_id, frame_id)

/-- `BufferPoolManager::fetch_page_write`.  A resident page returns its
frame's write guard with no state change at all (no pin, no replacer
update).  The non-resident path always reaches the blocked `recv()` of
the commented-out `schedule_read`, so it never returns. -/
def fetch_page_write (st : BufferPoolManager) (page_id : Nat) :
    Option (BufferPoolManager × Nat) :=
  match st.pages_map page_id with
  | some frame_id => some (st, frame_id)
  | none => none

/-- `BufferPoolManager::fetch_page_read`: same shape as
`fetch_page_write` with a shared guard. -/
def fetch_page_read (st : BufferPoolManager) (page_id : Nat) :
    Option (BufferPoolManager × Nat) :=
  match st.pages_map page_id with
  | some frame_id => some (st, frame_id)
  | none => none

/-- `BufferPoolManager::unpin_page(page_id, is_dirty)`: error when the
page is not resident; otherwise `frame.unpin()` (a wrapping decrement),
then `frame.set_dirty(is_dirty)` — an unconditional overwrite of the
dirty flag — and if the count is now zero, mark the frame evictable. -/
def unpin_page (st : BufferPoolManager) (page_id : Nat) (is_dirty : Bool) :
    Except Unit BufferPoolManager :=
  match st.pages_map page_id with
  | none => .error ()
  | some frame_id =>
    match st.pages.get? frame_id with
    | none => .error ()
    | some frame =>
      let frame := (frame.unpin).set_dirty is_dirty
      let st := { st with pages := st.pages.set frame_id frame }
      if frame.is_pinned then .ok st
      else
        let store := lru_set_evictable st.replacer.node_store frame_id true
        .ok { st with replacer := { st.replacer with node_store := store } }

/-- `BufferPoolManager::delete_page`: an *error* when the page is not
resident (`with_context` on the page-table miss), an error when the
frame is pinned; otherwise remove the page-table entry, remove the
frame from the replacer, push the frame index onto the free list, reset
the frame, and call the (trivially succeeding) `deallocate_page`. -/
def delete_page (st : BufferPoolManager) (page_id : Nat) :
    Except Unit BufferPoolManager :=
  match st.pages_map page_id with
  | none => .error ()
  | some frame_id =>
    match st.pages.get? frame_id with
    | none => .error ()
    | some frame =>
      if frame.is_pinned then .error ()
      else
        let store := lru_remove st.replacer.node_store frame_id
        .ok { st with
          pages_map := fun q => if q = page_id then none else st.pages_map q
          replacer := { st.replacer with node_store := store }
          free_list := st.free_list ++ [frame_id]
          pages := st.pages.set frame_id frame.reset }

end BufferPoolManager

/-- After `BufferPoolManager::new(…, 1, 2)` and one `new_page`, the
state whose frame 0 backs the returned guard for page 1. -/
def c5_pool : BufferPoolManager := BufferPoolManager.new 1 2

/-- C5, at the failing input: a successful `new_page` on a fresh pool
of one frame hands out page 1 on frame 0 with the frame's pin count
still `0` (the source never calls `Page::pin`), and a subsequent
resident `fetch_page_write` of page 1 succeeds, again leaving the pin
count at `0` — the claim requires each call to increment it. -/
theorem new_page_pin_count_c5_failing :
    (c5_pool.new_page).map
      (fun r => (r.2.1, r.2.2, (r.1.pages.getD 0 Page.new).pin_count)) =
      some (1, 0, 0) ∧
    (c5_pool.new_page).bind
      (fun r => (r.1.fetch_page_write 1).map
        (fun f => (f.2, (f.1.pages.getD 0 Page.new).pin_count))) =
      some (0, 0) := by
  constructor <;> rfl

/-- A pool of one frame whose frame 0 holds resident page 1 with
`pin_count = 0` and `is_dirty = true` (what a fetch-then-
`unpin_page(1, true)` run of the source leaves behind). -/
def c6_pool : BufferPoolManager :=
  { pages := [{ id := some 1, data := List.replicate PAGE_SIZE 0,
                pin_count := 0, is_dirty := true }]
    free_list := []
    replacer := { num_of_frames := 1, k := 2, node_store := [(0, { k := 2, frame_id := 0, is_evictable := false, history := [0] })] }
    pages_map := fun q => if q = 1 then some 0 else none
    next_page_id := 1
    now := 1 }

/-- C6, at the failing input: `unpin_page(1, false)` on `c6_pool`
succeeds and leaves the frame's dirty flag `false`, although the flag
was `true` before the call — the claim requires the flag to become
`true OR false = true`, i.e. a set dirty flag must never be cleared by
unpinning.  (The same call also wraps the zero pin count around to
`usize::MAX` instead of decrementing to a non-negative value.) -/
theorem unpin_page_dirty_c6_failing :
    (c6_pool.pages.getD 0 Page.new).is_dirty = true ∧
    (c6_pool.unpin_page 1 false).toOption.map
      (fun s => ((s.pages.getD 0 Page.new).is_dirty,
                 (s.pages.getD 0 Page.new).pin_count)) =
      some (false, USIZE_MAX) := by
  constructor <;> rfl

/-- C8, counterexample to the claim as stated: on a fresh pool, page 42
is not resident, and `delete_page(42)` returns an *error*, not a no-op
success. -/
theorem delete_page_c8_counterexample :
    (BufferPoolManager.new 1 2).pages_map 42 = none ∧
    (BufferPoolManager.new 1 2).delete_page 42 = .error () := by
  constructor <;> rfl

/-- C8, amended: `delete_page` errors when the page is **not** resident
(instead of the claimed no-op success); errors when the resident frame
is pinned; and otherwise removes the page-table entry, removes the
frame from the replacer, appends the frame index to the free list and
resets the frame (the disk deallocate hook is a trivial `Ok`). -/
theorem delete_page_c8_amended (st : BufferPoolManager) (page_id : Nat) :
    (st.pages_map page_id = none → st.delete_page page_id = .error ()) ∧
    (∀ frame_id frame, st.pages_map page_id = some frame_id →
      st.pages[frame_id]? = some frame → frame.is_pinned = true →
      st.delete_page page_id = .error ()) ∧
    (∀ frame_id frame, st.pages_map page_id = some frame_id →
      st.pages[frame_id]? = some frame → frame.is_pinned = false →
      ∃ st', st.delete_page page_id = .ok st' ∧
        st'.pages_map page_id = none ∧
        st'.replacer.node_store = lru_remove st.replacer.node_store frame_id ∧
        st'.free_list = st.free_list ++ [frame_id] ∧
        st'.pages[frame_id]? = some frame.reset) := by
  refine ⟨fun h => ?_, fun fid frame h1 h2 h3 => ?_, fun fid frame h1 h2 h3 => ?_⟩
  · simp [BufferPoolManager.delete_page, h]
  · simp [BufferPoolManager.delete_page, h1, h2, h3]
  · have hlt : fid < st.pages.length := (List.getElem?_eq_some.mp h2).1
    refine ⟨{ st with
                pages := st.pages.set fid frame.reset
                free_list := st.free_list ++ [fid]
                replacer := { st.replacer with
                  node_store := lru_remove st.replacer.node_store fid }
                pages_map := fun q => if q = page_id then none else st.pages_map q },
            by simp [BufferPoolManager.delete_page, h1, h2, h3], by simp, rfl, rfl, ?_⟩
    simp [List.getElem?_set_eq_of_lt, hlt]

/-- A pool with resident, unpinned page 1 on frame 0, used to witness
the amended C8 theorem. -/
def c8_pool : BufferPoolManager :=
  { c6_pool with pages := [{ id := some 1, data := List.replicate PAGE_SIZE 0,
                             pin_count := 0, is_dirty := false }] }

/-- Witness for the amended C8 theorem at a concrete resident,
unpinned page. -/
theorem delete_page_c8_amended_witness :
    ∃ st', c8_pool.delete_page 1 = .ok st' ∧
      st'.pages_map 1 = none ∧
      st'.replacer.node_store = lru_remove c8_pool.replacer.node_store 0 ∧
      st'.free_list = c8_pool.free_list ++ [0] ∧
      st'.pages[0]? = some ({ id := some 1, data := List.replicate PAGE_SIZE 0,
                              pin_count := 0, is_dirty := false } : Page).reset :=
  (delete_page_c8_amended c8_pool 1).2.2 0
    { id := some 1, data := List.replicate PAGE_SIZE 0,
      pin_count := 0, is_dirty := false } rfl rfl rfl

/-! ## Extendible hash table pages
(`src/storage/extendible_hash_table/…_page.rs`)

Logical page records, kept in decoded form (the binary codec round-trips
by the spec's `decode (encode x) = x` requirement, so `to_bytes` /
`from_bytes` cancel and are not modelled). -/

/-- `ExtendibleHTableHeaderPage`: a vector of `2^max_depth` optional
directory page ids. -/
structure ExtendibleHTableHeaderPage where
  directory_page_ids : List (Option Nat)
  max_depth : Nat

namespace ExtendibleHTableHeaderPage

/-- `ExtendibleHTableHeaderPage::new`. -/
def new (max_depth : Nat) : ExtendibleHTableHeaderPage :=
  { directory_page_ids := List.replicate (2 ^ max_depth) none, max_depth := max_depth }

/-- `hash_to_directory_index`: `hash & (2^max_depth - 1)`, i.e.
`hash % 2^max_depth`. -/
def hash_to_directory_index (h : ExtendibleHTableHeaderPage) (hash : Nat) : Nat :=
  hash % 2 ^ h.max_depth

/-- `get_directory_page_id`: `None` both out of bounds and for an empty
slot (`get(i).and_then(as_ref)`). -/
def get_directory_page_id (h : ExtendibleHTableHeaderPage) (i : Nat) : Option Nat :=
  h.directory_page_ids.getD i none

/-- `set_directory_page_id` (the source indexes the vector; all call
sites are in bounds since the routed index is `< 2^max_depth`). -/
def set_directory_page_id (h : ExtendibleHTableHeaderPage) (i : Nat)
    (pid : Nat) : ExtendibleHTableHeaderPage :=
  { h with directory_page_ids := h.directory_page_ids.set i (some pid) }

/-- `get_max_size`. -/
def get_max_size (h : ExtendibleHTableHeaderPage) : Nat :=
  2 ^ h.max_depth

end ExtendibleHTableHeaderPage

/-- `ExtendibleHTableDirectoryPage`.  Note the constructor quirk of the
source: `bucket_page_ids` starts **empty** (`Vec::default()`) while
`local_depths` starts as the one-element vector `[0]`. -/
structure ExtendibleHTableDirectoryPage where
  bucket_page_ids : List Nat
  local_depths : List Nat
  max_depth : Nat
  global_depth : Nat

namespace ExtendibleHTableDirectoryPage

/-- `ExtendibleHTableDirectoryPage::new(max_depth)`. -/
def new (max_depth : Nat) : ExtendibleHTableDirectoryPage :=
  { bucket_page_ids := [], local_depths := [0], max_depth := max_depth, global_depth := 0 }

/-- `get_global_depth`. -/
def get_global_depth (d : ExtendibleHTableDirectoryPage) : Nat :=
  d.global_depth

/-- `hash_to_bucket_index`: `hash & get_global_depth_mask()`.  The mask
is `0` when `global_depth = 0` and `(1 << global_depth) - 1` otherwise;
in both cases the masked value is `hash % 2^global_depth`. -/
def hash_to_bucket_index (d : ExtendibleHTableDirectoryPage) (hash : Nat) : Nat :=
  hash % 2 ^ d.global_depth

/-- `get_bucket_page_id`: `Vec::get`, `None` out of bounds. -/
def get_bucket_page_id (d : ExtendibleHTableDirectoryPage) (i : Nat) : Option Nat :=
  d.bucket_page_ids[i]?

/-- `get_local_depth`: `Vec::get`, `None` out of bounds. -/
def get_local_depth (d : ExtendibleHTableDirectoryPage) (i : Nat) : Option Nat :=
  d.local_depths[i]?

/-- `get_split_image_index`: `0` for local depth `0`, otherwise
`i XOR (1 << (local_depth - 1))`.  (The source `unwrap`s the local
depth; all call sites are in bounds.) -/
def get_split_image_index (d : ExtendibleHTableDirectoryPage) (i : Nat) : Nat :=
  let ld := d.local_depths.getD i 0
  if ld = 0 then 0 else i ^^^ 2 ^ (ld - 1)

/-- `get_size`: `2^global_depth`. -/
def get_size (d : ExtendibleHTableDirectoryPage) : Nat :=
  2 ^ d.global_depth

/-- `increment_global_depth`: returns the `DirectoryMaxSizeReached`
error when `global_depth = max_depth`; panics when the local-depth
array is shorter than the bucket-page-id array (the copy loop reads
`self.local_depths[i]` for every `i < old_size`, `old_size` being the
*bucket-page-id* array's length) — both non-returning outcomes are
`none`; otherwise allocates arrays of length `2 * old_size` and copies
entry `i` of each array to slots `i` and `i + old_size` for
`i < old_size`, so surplus local-depth entries beyond `old_size` are
dropped (hence the `take`). -/
def increment_global_depth (d : ExtendibleHTableDirectoryPage) :
    Option ExtendibleHTableDirectoryPage :=
  if d.global_depth = d.max_depth then none
  else
    let old_size := d.bucket_page_ids.length
    if old_size ≤ d.local_depths.length then
      some { d with
        bucket_page_ids := d.bucket_page_ids ++ d.bucket_page_ids
        local_depths := d.local_depths.take old_size ++ d.local_depths.take old_size
        global_depth := d.global_depth + 1 }
    else none

/-- Zeta-reduced unfolding of `increment_global_depth`. -/
theorem increment_global_depth_eq (d : ExtendibleHTableDirectoryPage) :
    d.increment_global_depth =
      if d.global_depth = d.max_depth then none
      else if d.bucket_page_ids.length ≤ d.local_depths.length then
        some { d with
          bucket_page_ids := d.bucket_page_ids ++ d.bucket_page_ids
          local_depths :=
            d.local_depths.take d.bucket_page_ids.length ++
              d.local_depths.take d.bucket_page_ids.length
          global_depth := d.global_depth + 1 }
      else none := rfl

/-- `increment_local_depth` (the source indexes the vector; call sites
are in bounds). -/
def increment_local_depth (d : ExtendibleHTableDirectoryPage) (i : Nat) :
    ExtendibleHTableDirectoryPage :=
  { d with local_depths := d.local_depths.set i (d.local_depths.getD i 0 + 1) }

/-- `set_bucket_page_id`, with the source's quirk: when the id vector
is empty a single `0` entry is pushed before indexed assignment. -/
def set_bucket_page_id (d : ExtendibleHTableDirectoryPage) (i : Nat)
    (pid : Nat) : ExtendibleHTableDirectoryPage :=
  let ids := if d.bucket_page_ids.isEmpty then [0] else d.bucket_page_ids
  { d with bucket_page_ids := ids.set i pid }

/-- `ExtendibleHTableDirectoryPage::verify_integrity`, as the predicate
"all of its assertions pass": every local depth is at most the global
depth, slots sharing a bucket page id share a local depth, and each
bucket page id occurs exactly `2^(global_depth - local_depth)` times. -/
def verify_integrity (d : ExtendibleHTableDirectoryPage) : Bool :=
  let n := d.bucket_page_ids.length
  ((List.range n).all fun i =>
    decide (d.local_depths.getD i 0 ≤ d.global_depth) &&
    ((List.range n).all fun j =>
      (d.bucket_page_ids.getD j 0 != d.bucket_page_ids.getD i 0) ||
      (d.local_depths.getD j 0 == d.local_depths.getD i 0))) &&
  ((List.range n).all fun i =>
    d.bucket_page_ids.count (d.bucket_page_ids.getD i 0) ==
      2 ^ (d.global_depth - d.local_depths.getD i 0))

end ExtendibleHTableDirectoryPage

/-- `ExtendibleHTableBucketPage`: a capacity and a `HashMap<K, V>`
payload, embedded as a key-unique association list. -/
structure ExtendibleHTableBucketPage (K V : Type) where
  max_size : Nat
  data : List (K × V)

namespace ExtendibleHTableBucketPage

variable {K V : Type} [DecidableEq K]

/-- `ExtendibleHTableBucketPage::new`. -/
def new (max_size : Nat) : ExtendibleHTableBucketPage K V :=
  { max_size := max_size, data := [] }

/-- `insert`: `HashMap::insert`, i.e. replace the binding of `k` if
present, add it otherwise (embedded as remove-then-append). -/
def insert (b : ExtendibleHTableBucketPage K V) (k : K) (v : V) :
    ExtendibleHTableBucketPage K V :=
  { b with data := b.data.filter (fun e => decide (e.1 ≠ k)) ++ [(k, v)] }

/-- `get`. -/
def get (b : ExtendibleHTableBucketPage K V) (k : K) : Option V :=
  (b.data.find? (fun e => decide (e.1 = k))).map (fun e => e.2)

/-- `get_entries`: drain the payload, returning the entries and the
emptied bucket. -/
def get_entries (b : ExtendibleHTableBucketPage K V) :
    List (K × V) × ExtendibleHTableBucketPage K V :=
  (b.data, { b with data := [] })

/-- `is_full`: `len == max_size`. -/
def is_full (b : ExtendibleHTableBucketPage K V) : Bool :=
  b.data.length == b.max_size

/-- `is_empty`. -/
def is_empty (b : ExtendibleHTableBucketPage K V) : Bool :=
  b.data.length == 0

/-- `get_size`. -/
def get_size (b : ExtendibleHTableBucketPage K V) : Nat :=
  b.data.length

end ExtendibleHTableBucketPage

/-- C7, counterexample to the claim as stated: on the freshly
constructed directory with `max_depth = 1` (whose arrays have lengths
`0` and `1`), `increment_global_depth` succeeds but shrinks
`local_depths` from one entry to zero entries instead of doubling it
to two. -/
theorem increment_global_depth_c7_counterexample :
    (ExtendibleHTableDirectoryPage.new 1).local_depths.length = 1 ∧
    ((ExtendibleHTableDirectoryPage.new 1).increment_global_depth).map
      (fun d => d.local_depths.length) = some 0 := by
  constructor <;> rfl

/-- C7, amended: `increment_global_depth` fails with the max-size error
exactly when `global_depth = max_depth`; when `global_depth < max_depth`
but the local-depth array is shorter than the bucket-page-id array it
panics on the out-of-bounds `self.local_depths[i]` read (both
non-returning outcomes are `none`); otherwise it increments the global
depth and resizes both arrays to twice the length of the
*bucket-page-id* array (call it `old_size`), copying entry `i` of each
array to entries `i` and `i + old_size` for `i < old_size`; the
local-depth array is doubled in the claimed sense only when its length
already equals `old_size` — the source resizes it relative to
`old_size`, not to its own length. -/
theorem increment_global_depth_c7_amended (d : ExtendibleHTableDirectoryPage) :
    (d.increment_global_depth = none ↔
      (d.global_depth = d.max_depth ∨
        d.local_depths.length < d.bucket_page_ids.length)) ∧
    (∀ d', d.increment_global_depth = some d' →
      d'.global_depth = d.global_depth + 1 ∧
      d'.max_depth = d.max_depth ∧
      d'.bucket_page_ids.length = 2 * d.bucket_page_ids.length ∧
      d'.local_depths.length = 2 * d.bucket_page_ids.length ∧
      (∀ i, i < d.bucket_page_ids.length →
        d'.bucket_page_ids.getD i 0 = d.bucket_page_ids.getD i 0 ∧
        d'.bucket_page_ids.getD (i + d.bucket_page_ids.length) 0 =
          d.bucket_page_ids.getD i 0 ∧
        d'.local_depths.getD i 0 = d.local_depths.getD i 0 ∧
        d'.local_depths.getD (i + d.bucket_page_ids.length) 0 =
          d.local_depths.getD i 0) ∧
      (d.local_depths.length = d.bucket_page_ids.length →
        d'.local_depths = d.local_depths ++ d.local_depths)) := by
  rw [ExtendibleHTableDirectoryPage.increment_global_depth_eq]
  constructor
  · by_cases h1 : d.global_depth = d.max_depth
    · rw [if_pos h1]
      simp [h1]
    · rw [if_neg h1]
      by_cases h2 : d.bucket_page_ids.length ≤ d.local_depths.length
      · rw [if_pos h2]
        constructor
        · intro hc
          exact Option.noConfusion hc
        · rintro (hc | hc)
          · exact absurd hc h1
          · omega
      · rw [if_neg h2]
        constructor
        · intro _
          right
          omega
        · intro _
          rfl
  · intro d' hd'
    by_cases h1 : d.global_depth = d.max_depth
    · rw [if_pos h1] at hd'
      exact Option.noConfusion hd'
    · rw [if_neg h1] at hd'
      by_cases h2 : d.bucket_page_ids.length ≤ d.local_depths.length
      · rw [if_pos h2] at hd'
        cases Option.some.inj hd'
        have htlen : (d.local_depths.take d.bucket_page_ids.length).length
            = d.bucket_page_ids.length := by
          rw [List.length_take]
          omega
        refine ⟨rfl, rfl, by simp [Nat.two_mul], ?_, fun i hi => ?_,
          fun hlen => ?_⟩
        · show ((d.local_depths.take d.bucket_page_ids.length) ++
            (d.local_depths.take d.bucket_page_ids.length)).length = _
          rw [List.length_append, htlen]
          omega
        · refine ⟨?_, ?_, ?_, ?_⟩
          · simp [List.getD, List.getElem?_append, hi]
          · simp only [List.getD, List.get?_eq_getElem?]
            rw [List.getElem?_append_right (by omega)]
            simp
          · simp only [List.getD_eq_getElem?_getD]
            rw [List.getElem?_append, if_pos (by rw [htlen]; exact hi),
              List.getElem?_take, if_pos hi]
          · simp only [List.getD_eq_getElem?_getD]
            rw [List.getElem?_append_right (by rw [htlen]; omega), htlen,
              Nat.add_sub_cancel, List.getElem?_take, if_pos hi]
        · rw [← hlen, List.take_length]
      · rw [if_neg h2] at hd'
        exact Option.noConfusion hd'

/-- Witness for the amended C7 theorem: the success half applied to the
concrete directory `⟨[7], [0], max_depth 2, global_depth 0⟩`, and the
failure half applied to `⟨[1, 2], [0], max_depth 2, global_depth 1⟩`,
whose local-depth array is shorter than its bucket-page-id array. -/
theorem increment_global_depth_c7_amended_witness :
    (⟨[7], [0], 2, 0⟩ : ExtendibleHTableDirectoryPage).global_depth ≠
      (⟨[7], [0], 2, 0⟩ : ExtendibleHTableDirectoryPage).max_depth ∧
    ((⟨[7, 7], [0, 0], 2, 1⟩ : ExtendibleHTableDirectoryPage).local_depths =
      (⟨[7], [0], 2, 0⟩ : ExtendibleHTableDirectoryPage).local_depths ++
        (⟨[7], [0], 2, 0⟩ : ExtendibleHTableDirectoryPage).local_depths) ∧
    (⟨[1, 2], [0], 2, 1⟩ :
      ExtendibleHTableDirectoryPage).increment_global_depth = none :=
  ⟨by decide,
    ((increment_global_depth_c7_amended ⟨[7], [0], 2, 0⟩).2
      ⟨[7, 7], [0, 0], 2, 1⟩ rfl).2.2.2.2.2 rfl,
    (increment_global_depth_c7_amended ⟨[1, 2], [0], 2, 1⟩).1.mpr
      (Or.inr (by decide))⟩

/-! ## Extendible hash table
(`src/storage/extendible_hash_table/extendible_hash_table.rs`)

The table's pages live in the buffer pool.  In every table operation of
the source, each page touched is resident for the whole operation (it
was created by `new_page` and its frame is never made evictable), and
the buffer pool returns the bytes most recently written through a
guard, so for the table's claims the pool is abstracted to its content:
a map from page id to decoded page, plus the allocator `next_page_id`
(`allocate_page` increments and returns, so the first id is `1`, and a
fresh id is strictly larger than every previously allocated id).
`new_page` leaves the fresh page zeroed — decoding it would panic — so
the fresh id is mapped to `none` until the first `set_data`. -/

/-- A decoded page: the tagged view the hash table decodes page bytes
into (header / directory / bucket). -/
inductive PageData (K V : Type) where
  | header (h : ExtendibleHTableHeaderPage)
  | directory (d : ExtendibleHTableDirectoryPage)
  | bucket (b : ExtendibleHTableBucketPage K V)

/-- The buffer pool's content, as the hash table observes it. -/
structure PageStore (K V : Type) where
  store : Nat → Option (PageData K V)
  next_page_id : Nat

namespace PageStore

variable {K V : Type}

/-- `BufferPoolManager::new_page` as the table uses it: allocate the
next page id; the page's bytes are zeroed (not yet decodable). -/
def new_page (st : PageStore K V) : PageStore K V × Nat :=
  let pid := st.next_page_id + 1
  (⟨fun q => if q = pid then none else st.store q, pid⟩, pid)

/-- A guard's `set_data`: overwrite one page's content. -/
def set_data (st : PageStore K V) (pid : Nat) (pd : PageData K V) :
    PageStore K V :=
  { st with store := fun q => if q = pid then some pd else st.store q }

end PageStore

/-- `ExtendibleHashTable`'s own fields (the `name` string and the
pool handle carry no logical content). -/
structure ExtendibleHashTable where
  directory_max_depth : Nat
  bucket_max_size : Nat
  header_page_id : Nat

namespace ExtendibleHashTable

variable {K V : Type} [DecidableEq K]

/-- `ExtendibleHashTable::new(name, pool, directory_max_depth,
bucket_max_size)`: allocates the header page (page id `1` on a fresh
pool) and stores a header with `header_max_size = 0` — the value is
hard-coded in the constructor; no parameter influences it. -/
def new (K V : Type) (directory_max_depth : Nat) (bucket_max_size : Nat) :
    ExtendibleHashTable × PageStore K V :=
  let st : PageStore K V := ⟨fun _ => none, 0⟩
  let (st, header_page_id) := st.new_page
  let st := st.set_data header_page_id
    (.header (ExtendibleHTableHeaderPage.new 0))
  (⟨directory_max_depth, bucket_max_size, header_page_id⟩, st)

/-- The slot rewrite of `insert_internal`'s split loop
(`for index in 0..directory.get_size()`), peeled one index at a time
from the top: `split_slots … m` has applied the loop body for indices
`0, …, m-1`.  For each index agreeing with `bucket_index` on the low
`bucket_next_local_depth` bits, the body increments the slot's local
depth, computes its split image (from the freshly incremented depth),
increments the image's local depth, and points the image at the new
bucket page. -/
def split_slots (bucket_index : Nat) (bucket_next_local_depth : Nat)
    (new_page_id : Nat) : Nat → ExtendibleHTableDirectoryPage →
    ExtendibleHTableDirectoryPage
  | 0, dir => dir
  | m + 1, dir =>
    let dir := split_slots bucket_index bucket_next_local_depth new_page_id m dir
    if m % 2 ^ bucket_next_local_depth =
        bucket_index % 2 ^ bucket_next_local_depth then
      let dir := dir.increment_local_depth m
      let split_image_index := dir.get_split_image_index m
      let dir := dir.increment_local_depth split_image_index
      dir.set_bucket_page_id split_image_index new_page_id
    else dir

/-- `ExtendibleHashTable::insert_internal`, with the recursive
re-insertion after a split turned into an explicit work list and fuel:
the source call `insert_internal(e)` for each drained entry `e` and
then for the incoming pair is exactly the processing, in order, of
`entries ++ [(k, v)]` before the remainder of the pending work, and
`none` covers every non-returning outcome (a Rust panic, the
`DirectoryMaxSizeReached` error, or recursion beyond the fuel).
Success (`some`) coincides with a successful `Ok(())` return of the
source for a large enough fuel.

Per pending pair: route to a bucket slot; install a fresh empty bucket
page if the slot has none; if the bucket is not full, insert (replacing
a duplicate key) and write bucket then directory back; otherwise split:
allocate the new bucket page, either (local depth = global depth)
increment this slot's local depth, double the directory and point the
split image at the new page, or rewrite every slot of the split
equivalence class via `split_slots`; then drain the old bucket, write
directory and drained bucket back, and re-insert the drained entries
followed by the incoming pair. -/
def insert_many (hash : K → Nat) (t : ExtendibleHashTable) (dir_pid : Nat) :
    Nat → List (K × V) → ExtendibleHTableDirectoryPage → PageStore K V →
    Option (ExtendibleHTableDirectoryPage × PageStore K V)
  | _, [], dir, st => some (dir, st)
  | 0, _ :: _, _, _ => none
  | fuel + 1, (k, v) :: rest, dir, st =>
    let bucket_index := dir.hash_to_bucket_index (hash k)
    let step? : Option (ExtendibleHTableBucketPage K V × Nat ×
        ExtendibleHTableDirectoryPage × PageStore K V) :=
      match dir.get_bucket_page_id bucket_index with
      | some bpid =>
        match st.store bpid with
        | some (.bucket b) => some (b, bpid, dir, st)
        | _ => none
      | none =>
        let (st, npid) := st.new_page
        some (ExtendibleHTableBucketPage.new t.bucket_max_size, npid,
              dir.set_bucket_page_id bucket_index npid, st)
    match step? with
    | none => none
    | some (b, bpid, dir, st) =>
      if b.is_full = false then
        let b := b.insert k v
        let st := st.set_data bpid (.bucket b)
        let st := st.set_data dir_pid (.directory dir)
        insert_many hash t dir_pid fuel rest dir st
      else
        match dir.get_local_depth bucket_index with
        | none => none
        | some local_depth =>
          let should_double_size := local_depth = dir.get_global_depth
          let (st, new_page_id) := st.new_page
          let st := st.set_data new_page_id
            (.bucket (ExtendibleHTableBucketPage.new t.bucket_max_size))
          let bucket_next_local_depth := local_depth + 1
          let dir? : Option ExtendibleHTableDirectoryPage :=
            if should_double_size then
              let dir := dir.increment_local_depth bucket_index
              match dir.increment_global_depth with
              | none => none
              | some dir =>
                some (dir.set_bucket_page_id
                  (dir.get_split_image_index bucket_index) new_page_id)
            else
              some (split_slots bucket_index bucket_next_local_depth
                new_page_id dir.get_size dir)
          match dir? with
          | none => none
          | some dir =>
            let (entries, b) := b.get_entries
            let st := st.set_data dir_pid (.directory dir)
            let st := st.set_data bpid (.bucket b)
            insert_many hash t dir_pid fuel (entries ++ [(k, v)] ++ rest) dir st

/-- `ExtendibleHashTable::insert`: fetch and decode the header, route
to a directory slot; fetch and decode the installed directory, or
allocate a fresh page, record it in the header, and start from
`ExtendibleHTableDirectoryPage::new(directory_max_depth)` (whose bytes
are only written once `insert_internal` stores the directory); then run
`insert_internal`. -/
def insert (hash : K → Nat) (t : ExtendibleHashTable) (fuel : Nat)
    (k : K) (v : V) (st : PageStore K V) : Option (PageStore K V) :=
  match st.store t.header_page_id with
  | some (.header header) =>
    let directory_index := header.hash_to_directory_index (hash k)
    match header.get_directory_page_id directory_index with
    | some directory_page_id =>
      match st.store directory_page_id with
      | some (.directory dir) =>
        (insert_many hash t directory_page_id fuel [(k, v)] dir st).map
          (fun r => r.2)
      | _ => none
    | none =>
      let (st, directory_page_id) := st.new_page
      let header := header.set_directory_page_id directory_index
        directory_page_id
      let st := st.set_data t.header_page_id (.header header)
      (insert_many hash t directory_page_id fuel [(k, v)]
        (ExtendibleHTableDirectoryPage.new t.directory_max_depth) st).map
        (fun r => r.2)
  | _ => none

/-- `ExtendibleHashTable::get`.  The outer `Option` separates a clean
return from a panic: the source `unwrap`s the directory page id and the
bucket page id, so a missing directory or bucket is a panic (`none`),
not the absence value `some none`. -/
def get (hash : K → Nat) (t : ExtendibleHashTable) (st : PageStore K V)
    (k : K) : Option (Option V) :=
  match st.store t.header_page_id with
  | some (.header header) =>
    let directory_index := header.hash_to_directory_index (hash k)
    match header.get_directory_page_id directory_index with
    | none => none
    | some directory_page_id =>
      match st.store directory_page_id with
      | some (.directory dir) =>
        let bucket_index := dir.hash_to_bucket_index (hash k)
        match dir.get_bucket_page_id bucket_index with
        | none => none
        | some bucket_page_id =>
          match st.store bucket_page_id with
          | some (.bucket b) => some (b.get k)
          | _ => none
      | _ => none
  | _ => none

/-- `ExtendibleHashTable::verify_integrity` of the source: its whole
body is commented out, so the call performs no check and trivially
"passes" on every state. -/
def verify_integrity (_t : ExtendibleHashTable) (_st : PageStore K V) : Bool :=
  true

/-- The check the specification describes for `verify_integrity`
("calls the directory invariant check for every installed directory"),
stated following the spec's words for comparison with the source's
no-op: every directory installed in the header passes
`ExtendibleHTableDirectoryPage::verify_integrity`. -/
def spec_verify_integrity (t : ExtendibleHashTable) (st : PageStore K V) :
    Bool :=
  match st.store t.header_page_id with
  | some (.header header) =>
    (List.range header.get_max_size).all fun i =>
      match header.get_directory_page_id i with
      | none => true
      | some dp =>
        match st.store dp with
        | some (.directory d) => d.verify_integrity
        | _ => false
  | _ => false

end ExtendibleHashTable

/-- C10: the constructor hard-codes `header_max_size = 0`, whatever its
`directory_max_depth` / `bucket_max_size` arguments are (no constructor
parameter reaches the header depth), so the stored header has
`max_depth = 0` and `hash_to_directory_index` sends every hash to slot
`0` — all keys route through one directory slot. -/
theorem table_new_header_depth_c10 (K V : Type) (dmd bms : Nat) :
    (ExtendibleHashTable.new K V dmd bms).2.store
        (ExtendibleHashTable.new K V dmd bms).1.header_page_id =
      some (PageData.header (ExtendibleHTableHeaderPage.new 0)) ∧
    (ExtendibleHTableHeaderPage.new 0).max_depth = 0 ∧
    ∀ hsh, (ExtendibleHTableHeaderPage.new 0).hash_to_directory_index hsh = 0 := by
  refine ⟨rfl, rfl, fun hsh => ?_⟩
  simp [ExtendibleHTableHeaderPage.hash_to_directory_index,
    ExtendibleHTableHeaderPage.new, Nat.mod_one]

/-- C4, counterexample to the claim as stated: on a freshly constructed
table no directory is installed in the header slot every key routes to,
and `get` *panics* (the `unwrap` of `get_directory_page_id`, i.e. the
outer `none`) instead of returning the claimed absence `some none`. -/
theorem get_missing_directory_c4_counterexample :
    ExtendibleHashTable.get (fun k => k)
        (ExtendibleHashTable.new Nat Nat 6 2).1
        (ExtendibleHashTable.new Nat Nat 6 2).2 5 = none ∧
    (ExtendibleHTableHeaderPage.new 0).get_directory_page_id
      ((ExtendibleHTableHeaderPage.new 0).hash_to_directory_index 5) = none := by
  exact ⟨rfl, rfl⟩

/-- C4, amended: when the key's header slot has no installed directory,
or its directory slot has no installed bucket, `get` panics (embedded
as the outer `none`) rather than returning the absence value
`some none`. -/
theorem get_missing_route_c4_amended {K V : Type} [DecidableEq K]
    (hash : K → Nat) (t : ExtendibleHashTable) (st : PageStore K V) (k : K)
    (header : ExtendibleHTableHeaderPage)
    (hh : st.store t.header_page_id = some (.header header)) :
    (header.get_directory_page_id (header.hash_to_directory_index (hash k)) =
        none → ExtendibleHashTable.get hash t st k = none) ∧
    (∀ dp dir, header.get_directory_page_id
        (header.hash_to_directory_index (hash k)) = some dp →
      st.store dp = some (.directory dir) →
      dir.get_bucket_page_id (dir.hash_to_bucket_index (hash k)) = none →
      ExtendibleHashTable.get hash t st k = none) := by
  constructor
  · intro hnone
    simp [ExtendibleHashTable.get, hh, hnone]
  · intro dp dir hdp hdir hnone
    simp [ExtendibleHashTable.get, hh, hdp, hdir, hnone]

/-- Witness for the amended C4 theorem: the missing-directory half at
the fresh table. -/
theorem get_missing_route_c4_amended_witness :
    ExtendibleHashTable.get (fun k => k)
      (ExtendibleHashTable.new Nat Nat 6 2).1
      (ExtendibleHashTable.new Nat Nat 6 2).2 9 = none :=
  (get_missing_route_c4_amended (fun k => k)
    (ExtendibleHashTable.new Nat Nat 6 2).1
    (ExtendibleHashTable.new Nat Nat 6 2).2 9
    (ExtendibleHTableHeaderPage.new 0) rfl).1 rfl

/-- A table state whose single installed directory violates the depth
invariant (`local_depth 3 > global_depth 0`). -/
def c9_store : PageStore Nat Nat :=
  ⟨fun q =>
    if q = 1 then some (.header ⟨[some 2], 0⟩)
    else if q = 2 then some (.directory ⟨[5], [3], 6, 0⟩)
    else none, 2⟩

/-- C9, counterexample to the claim as stated: the table-level
`verify_integrity` raises nothing on a state with an installed
directory that fails the directory invariant check — its body is
commented out — while the check the spec describes fails that state,
so `verify_integrity` does not invoke the directory check for every
installed directory. -/
theorem verify_integrity_c9_counterexample :
    ExtendibleHashTable.verify_integrity ⟨6, 2, 1⟩ c9_store = true ∧
    ExtendibleHashTable.spec_verify_integrity ⟨6, 2, 1⟩ c9_store = false ∧
    ExtendibleHTableDirectoryPage.verify_integrity ⟨[5], [3], 6, 0⟩ = false := by
  exact ⟨rfl, by decide, by decide⟩

/-- C9, amended: `ExtendibleHashTable::verify_integrity` performs no
check at all (its body is commented out in the source); it trivially
passes on every state. -/
theorem verify_integrity_c9_amended {K V : Type} (t : ExtendibleHashTable)
    (st : PageStore K V) : ExtendibleHashTable.verify_integrity t st = true :=
  rfl

/-! ## The directory depth invariant (C3)

Positional toolkit: `dirP d i` / `dirL d i` read the directory's
bucket-page-id / local-depth arrays at slot `i` (with default `0`, only
ever used in bounds). -/

/-- Slot `i`'s bucket page id. -/
def dirP (d : ExtendibleHTableDirectoryPage) (i : Nat) : Nat :=
  d.bucket_page_ids.getD i 0

/-- Slot `i`'s local depth. -/
def dirL (d : ExtendibleHTableDirectoryPage) (i : Nat) : Nat :=
  d.local_depths.getD i 0

theorem getD_set_self {α : Type} (l : List α) (i : Nat) (x d : α)
    (h : i < l.length) : (l.set i x).getD i d = x := by
  simp [List.getD_eq_getElem?_getD, List.getElem?_set_eq_of_lt, h]

theorem getD_set_ne {α : Type} (l : List α) (i j : Nat) (x d : α)
    (h : i ≠ j) : (l.set i x).getD j d = l.getD j d := by
  simp [List.getD_eq_getElem?_getD, List.getElem?_set_ne h]

theorem getD_append_lt {α : Type} (l m : List α) (j : Nat) (d : α)
    (h : j < l.length) : (l ++ m).getD j d = l.getD j d := by
  simp [List.getD_eq_getElem?_getD, List.getElem?_append, h]

theorem getD_append_ge {α : Type} (l m : List α) (j : Nat) (d : α)
    (h : l.length ≤ j) : (l ++ m).getD j d = m.getD (j - l.length) d := by
  simp only [List.getD_eq_getElem?_getD]
  rw [List.getElem?_append_right h]

theorem getD_mem {α : Type} (l : List α) (i : Nat) (d : α)
    (h : i < l.length) : l.getD i d ∈ l := by
  simp only [List.getD_eq_getElem?_getD, List.getElem?_eq_getElem h]
  exact List.getElem_mem h

theorem count_eq_countP_range (l : List Nat) (x : Nat) :
    l.count x = (List.range l.length).countP (fun j => l.getD j 0 == x) := by
  induction l with
  | nil => simp
  | cons a t ih =>
    rw [List.count_cons, List.length_cons, List.range_succ_eq_map,
      List.countP_cons, List.countP_map]
    have h1 : (List.range t.length).countP
        ((fun j => (a :: t).getD j 0 == x) ∘ Nat.succ) =
        (List.range t.length).countP (fun j => t.getD j 0 == x) := by
      apply List.countP_congr
      intro j _
      simp [Function.comp, List.getD_cons_succ]
    rw [h1, ← ih]
    simp [List.getD_cons_zero]

theorem countP_range_beq (n r : Nat) :
    (List.range n).countP (fun j => j == r) = if r < n then 1 else 0 := by
  induction n with
  | zero => simp
  | succ m ih =>
    rw [List.range_succ, List.countP_append, ih]
    by_cases h : r < m
    · simp [h, Nat.lt_succ_of_lt h, Nat.ne_of_gt h]
    · by_cases h2 : r = m
      · subst h2
        simp [h, Nat.lt_succ_self]
      · have : ¬ r < m + 1 := by omega
        simp [h, this, h2]
        omega

theorem countP_range_mod (g l r : Nat) (hl : l ≤ g) (hr : r < 2 ^ l) :
    (List.range (2 ^ g)).countP (fun j => j % 2 ^ l == r) = 2 ^ (g - l) := by
  induction g with
  | zero =>
    have hl0 : l = 0 := Nat.le_zero.mp hl
    subst hl0
    have hr0 : r = 0 := by omega
    subst hr0
    decide
  | succ m ih =>
    by_cases hlm : l ≤ m
    · have hsplit : 2 ^ (m + 1) = 2 ^ m + 2 ^ m := by rw [Nat.pow_succ]; omega
      rw [hsplit, List.range_add, List.countP_append, List.countP_map, ih hlm]
      have hcongr : (List.range (2 ^ m)).countP
          ((fun j => j % 2 ^ l == r) ∘ (fun x => 2 ^ m + x)) =
          (List.range (2 ^ m)).countP (fun j => j % 2 ^ l == r) := by
        apply List.countP_congr
        intro j _
        have hdvd : 2 ^ l ∣ 2 ^ m := Nat.pow_dvd_pow 2 hlm
        obtain ⟨c, hc⟩ := hdvd
        simp only [Function.comp]
        rw [hc, Nat.add_comm, Nat.add_mul_mod_self_left]
      rw [hcongr, ih hlm]
      have : m + 1 - l = (m - l) + 1 := by omega
      rw [this, Nat.pow_succ]
      omega
    · have hlm1 : l = m + 1 := by omega
      subst hlm1
      have : (List.range (2 ^ (m + 1))).countP (fun j => j % 2 ^ (m + 1) == r) =
          (List.range (2 ^ (m + 1))).countP (fun j => j == r) := by
        apply List.countP_congr
        intro j hj
        rw [List.mem_range] at hj
        rw [Nat.mod_eq_of_lt hj]
      rw [this, countP_range_beq]
      simp [hr]

theorem xor_two_pow_eq (n : Nat) : ∀ j : Nat,
    j ^^^ 2 ^ n = if (j / 2 ^ n) % 2 = 0 then j + 2 ^ n else j - 2 ^ n := by
  induction n with
  | zero =>
    intro j
    have hmod : (j ^^^ 1) % 2 = (j + 1) % 2 := Nat.xor_mod_two_eq
    have hdiv : (j ^^^ 1) / 2 = j / 2 := by
      have := Nat.xor_div_two (a := j) (b := 1)
      simpa using this
    have hj := Nat.div_add_mod j 2
    have hx := Nat.div_add_mod (j ^^^ 1) 2
    simp only [Nat.pow_zero, Nat.div_one]
    by_cases hb : j % 2 = 0
    · rw [if_pos hb]; omega
    · rw [if_neg hb]; omega
  | succ m ih =>
    intro j
    have hmod : (j ^^^ 2 ^ (m + 1)) % 2 = j % 2 := by
      have h1 : (j ^^^ 2 ^ (m + 1)) % 2 = (j + 2 ^ (m + 1)) % 2 := Nat.xor_mod_two_eq
      have h2 : 2 ^ (m + 1) % 2 = 0 := by
        simp [Nat.pow_succ, Nat.mul_mod_left]
      omega
    have hdiv : (j ^^^ 2 ^ (m + 1)) / 2 = (j / 2) ^^^ 2 ^ m := by
      have := Nat.xor_div_two (a := j) (b := 2 ^ (m + 1))
      have h2 : 2 ^ (m + 1) / 2 = 2 ^ m := by
        rw [Nat.pow_succ, Nat.mul_div_cancel]
        omega
      rw [this, h2]
    have hih := ih (j / 2)
    have hdd : j / 2 / 2 ^ m = j / 2 ^ (m + 1) := by
      rw [Nat.div_div_eq_div_mul, ← Nat.pow_succ']
    rw [hdd] at hih
    have hx := Nat.div_add_mod (j ^^^ 2 ^ (m + 1)) 2
    have hj := Nat.div_add_mod j 2
    have hp : (0:Nat) < 2 ^ m := Nat.pos_pow_of_pos m (by omega)
    have hps : 2 ^ (m + 1) = 2 * 2 ^ m := by rw [Nat.pow_succ']
    by_cases hb : (j / 2 ^ (m + 1)) % 2 = 0
    · rw [if_pos hb] at hih
      rw [hih] at hdiv
      rw [if_pos hb]
      omega
    · rw [if_neg hb] at hih
      rw [hih] at hdiv
      rw [if_neg hb]
      have hge : 2 ^ m ≤ j / 2 := by
        by_contra hc
        push_neg at hc
        have hz : j / 2 / 2 ^ m = 0 := Nat.div_eq_of_lt hc
        rw [hdd] at hz
        omega
      omega

theorem xor_two_pow_of_mod_lt {n j : Nat} (h : j % 2 ^ (n + 1) < 2 ^ n) :
    j ^^^ 2 ^ n = j + 2 ^ n := by
  have hbit : (j / 2 ^ n) % 2 = 0 := by
    have h1 : j % (2 ^ n * 2) / 2 ^ n = j / 2 ^ n % 2 :=
      Nat.mod_mul_right_div_self j (2 ^ n) 2
    have h2 : (2:Nat) ^ (n + 1) = 2 ^ n * 2 := by rw [Nat.pow_succ]
    rw [h2] at h
    have : j % (2 ^ n * 2) / 2 ^ n = 0 := Nat.div_eq_of_lt h
    omega
  rw [xor_two_pow_eq, if_pos hbit]

theorem xor_two_pow_of_mod_ge {n j : Nat} (h : 2 ^ n ≤ j % 2 ^ (n + 1)) :
    j ^^^ 2 ^ n = j - 2 ^ n := by
  have h2 : (2:Nat) ^ (n + 1) = 2 ^ n * 2 := by rw [Nat.pow_succ]
  have hbit : (j / 2 ^ n) % 2 = 1 := by
    have h1 : j % (2 ^ n * 2) / 2 ^ n = j / 2 ^ n % 2 :=
      Nat.mod_mul_right_div_self j (2 ^ n) 2
    have hlt : j % (2 ^ n * 2) < 2 ^ n * 2 := Nat.mod_lt _ (by positivity)
    rw [h2] at h
    have hge1 : 1 ≤ j % (2 ^ n * 2) / 2 ^ n := by
      apply Nat.le_div_iff_mul_le (by positivity) |>.mpr
      omega
    have hlt2 : j % (2 ^ n * 2) / 2 ^ n < 2 := by
      apply Nat.div_lt_iff_lt_mul (by positivity) |>.mpr
      omega
    omega
  rw [xor_two_pow_eq, if_neg (by omega)]

theorem xor_two_pow_invol (n j : Nat) : (j ^^^ 2 ^ n) ^^^ 2 ^ n = j := by
  rw [Nat.xor_assoc, Nat.xor_self, Nat.xor_zero]

theorem xor_two_pow_ne (n j : Nat) : j ^^^ 2 ^ n ≠ j := by
  have hp : (0:Nat) < 2 ^ n := Nat.pos_pow_of_pos n (by omega)
  rw [xor_two_pow_eq]
  split
  · omega
  · rename_i hb
    have hge : 2 ^ n ≤ j := by
      by_contra hc
      push_neg at hc
      rw [Nat.div_eq_of_lt hc] at hb
      simp at hb
    omega

theorem xor_two_pow_lt {g n j : Nat} (hj : j < 2 ^ g) (hn : n < g) :
    j ^^^ 2 ^ n < 2 ^ g :=
  Nat.xor_lt_two_pow hj (Nat.pow_lt_pow_right (by omega) hn)

theorem xor_mod_two_pow_succ (n j : Nat) :
    (j ^^^ 2 ^ n) % 2 ^ (n + 1) = (j % 2 ^ (n + 1)) ^^^ 2 ^ n := by
  have hMpos : (0:Nat) < 2 ^ (n + 1) := Nat.pos_pow_of_pos _ (by omega)
  have hM : (2:Nat) ^ (n + 1) = 2 ^ n + 2 ^ n := by rw [Nat.pow_succ]; omega
  have hr : j % 2 ^ (n + 1) % 2 ^ (n + 1) = j % 2 ^ (n + 1) :=
    Nat.mod_eq_of_lt (Nat.mod_lt _ hMpos)
  rcases Nat.lt_or_ge (j % 2 ^ (n + 1)) (2 ^ n) with h | h
  · rw [xor_two_pow_of_mod_lt h, xor_two_pow_of_mod_lt (by rw [hr]; exact h)]
    rw [Nat.add_mod, Nat.mod_eq_of_lt (show (2:Nat) ^ n < 2 ^ (n + 1) by omega)]
    exact Nat.mod_eq_of_lt (by omega)
  · rw [xor_two_pow_of_mod_ge h, xor_two_pow_of_mod_ge (by rw [hr]; exact h)]
    have hdm := Nat.div_add_mod j (2 ^ (n + 1))
    have hsub : j - 2 ^ n =
        2 ^ (n + 1) * (j / 2 ^ (n + 1)) + (j % 2 ^ (n + 1) - 2 ^ n) := by
      omega
    rw [hsub, Nat.mul_add_mod]
    exact Nat.mod_eq_of_lt (by have := Nat.mod_lt j hMpos; omega)

theorem xor_mod_lower {n l : Nat} (j : Nat) (h : l ≤ n) :
    (j ^^^ 2 ^ n) % 2 ^ l = j % 2 ^ l := by
  obtain ⟨c, hc⟩ : 2 ^ l ∣ 2 ^ n := Nat.pow_dvd_pow 2 h
  rw [xor_two_pow_eq]
  split
  · rw [hc, Nat.add_mul_mod_self_left]
  · rename_i hb
    have hge : 2 ^ n ≤ j := by
      by_contra hc2
      push_neg at hc2
      rw [Nat.div_eq_of_lt hc2] at hb
      simp at hb
    conv_rhs => rw [show j = (j - 2 ^ n) + 2 ^ n by omega]
    rw [hc, Nat.add_mul_mod_self_left]

theorem mod_pow_succ_split {n : Nat} (x y : Nat) (h : x % 2 ^ n = y % 2 ^ n) :
    x % 2 ^ (n + 1) = y % 2 ^ (n + 1) ∨
    x % 2 ^ (n + 1) = (y % 2 ^ (n + 1)) ^^^ 2 ^ n := by
  have hMpos : (0:Nat) < 2 ^ (n + 1) := Nat.pos_pow_of_pos _ (by omega)
  have hM : (2:Nat) ^ (n + 1) = 2 ^ n + 2 ^ n := by rw [Nat.pow_succ]; omega
  have hdvd : (2:Nat) ^ n ∣ 2 ^ (n + 1) := Nat.pow_dvd_pow 2 (by omega)
  have hx : x % 2 ^ (n + 1) % 2 ^ n = x % 2 ^ n := Nat.mod_mod_of_dvd x hdvd
  have hy : y % 2 ^ (n + 1) % 2 ^ n = y % 2 ^ n := Nat.mod_mod_of_dvd y hdvd
  have hry : y % 2 ^ (n + 1) % 2 ^ (n + 1) = y % 2 ^ (n + 1) :=
    Nat.mod_eq_of_lt (Nat.mod_lt _ hMpos)
  set rx := x % 2 ^ (n + 1) with hrx
  set ry := y % 2 ^ (n + 1) with hry2
  have hrxlt : rx < 2 ^ (n + 1) := Nat.mod_lt _ hMpos
  have hrylt : ry < 2 ^ (n + 1) := Nat.mod_lt _ hMpos
  have hq : rx % 2 ^ n = ry % 2 ^ n := by rw [hx, hy, h]
  rcases Nat.lt_or_ge rx (2 ^ n) with h1 | h1 <;>
    rcases Nat.lt_or_ge ry (2 ^ n) with h2 | h2
  · left
    rw [Nat.mod_eq_of_lt h1, Nat.mod_eq_of_lt h2] at hq
    exact hq
  · right
    rw [xor_two_pow_of_mod_ge (by rw [hry]; exact h2)]
    rw [Nat.mod_eq_of_lt h1] at hq
    rw [hq]
    rw [Nat.mod_eq_sub_mod h2, Nat.mod_eq_of_lt (by omega)]
  · right
    rw [xor_two_pow_of_mod_lt (by rw [hry]; exact h2)]
    rw [Nat.mod_eq_of_lt h2] at hq
    rw [Nat.mod_eq_sub_mod h1, Nat.mod_eq_of_lt (by omega)] at hq
    omega
  · left
    rw [Nat.mod_eq_sub_mod h1, Nat.mod_eq_of_lt (by omega)] at hq
    rw [Nat.mod_eq_sub_mod h2, Nat.mod_eq_of_lt (by omega)] at hq
    omega

theorem xor_mod_pow_succ_lower {n : Nat} (x y : Nat)
    (h : x % 2 ^ (n + 1) = (y % 2 ^ (n + 1)) ^^^ 2 ^ n) :
    x % 2 ^ n = y % 2 ^ n := by
  have hdvd : (2:Nat) ^ n ∣ 2 ^ (n + 1) := Nat.pow_dvd_pow 2 (by omega)
  have hx : x % 2 ^ (n + 1) % 2 ^ n = x % 2 ^ n := Nat.mod_mod_of_dvd x hdvd
  have hy : y % 2 ^ (n + 1) % 2 ^ n = y % 2 ^ n := Nat.mod_mod_of_dvd y hdvd
  have h2 : ((y % 2 ^ (n + 1)) ^^^ 2 ^ n) % 2 ^ n = y % 2 ^ (n + 1) % 2 ^ n :=
    xor_mod_lower _ (Nat.le_refl n)
  rw [← hx, h, h2, hy]

theorem mod_pow_succ_lower {n : Nat} (x y : Nat)
    (h : x % 2 ^ (n + 1) = y % 2 ^ (n + 1)) : x % 2 ^ n = y % 2 ^ n := by
  have hdvd : (2:Nat) ^ n ∣ 2 ^ (n + 1) := Nat.pow_dvd_pow 2 (by omega)
  rw [← Nat.mod_mod_of_dvd x hdvd, h, Nat.mod_mod_of_dvd y hdvd]

/-- The strengthened extendible-hashing directory invariant: both
arrays have length `2^global_depth`, every local depth is at most the
global depth, slots congruent modulo `2^local_depth` share their page
id and local depth, and slots sharing a page id are congruent modulo
that depth.  It implies the claimed counting invariant. -/
structure SInv (d : ExtendibleHTableDirectoryPage) : Prop where
  len_ids : d.bucket_page_ids.length = 2 ^ d.global_depth
  len_lds : d.local_depths.length = 2 ^ d.global_depth
  ld_le : ∀ i, i < 2 ^ d.global_depth → dirL d i ≤ d.global_depth
  class_eq : ∀ i j, i < 2 ^ d.global_depth → j < 2 ^ d.global_depth →
    j % 2 ^ dirL d i = i % 2 ^ dirL d i →
    dirP d j = dirP d i ∧ dirL d j = dirL d i
  pid_congr : ∀ i j, i < 2 ^ d.global_depth → j < 2 ^ d.global_depth →
    dirP d j = dirP d i → j % 2 ^ dirL d i = i % 2 ^ dirL d i

/-- The shape of a freshly constructed directory, before its first
bucket is installed: empty id array, one zero local depth, depth 0. -/
def FreshShape (d : ExtendibleHTableDirectoryPage) : Prop :=
  d.bucket_page_ids = [] ∧ d.local_depths = [0] ∧ d.global_depth = 0

theorem dirL_of_get_local_depth {d : ExtendibleHTableDirectoryPage}
    {i x : Nat} (h : d.get_local_depth i = some x) : dirL d i = x := by
  unfold ExtendibleHTableDirectoryPage.get_local_depth at h
  simp [dirL, List.getD_eq_getElem?_getD, h]

theorem add_pow_mod_lower (y : Nat) {l g : Nat} (h : l ≤ g) :
    (y + 2 ^ g) % 2 ^ l = y % 2 ^ l := by
  obtain ⟨c, hc⟩ : 2 ^ l ∣ 2 ^ g := Nat.pow_dvd_pow 2 h
  rw [hc, Nat.add_mul_mod_self_left]

/-- Preservation of `SInv` by the doubling split: increment the full
slot's local depth, double the directory, point the split image at the
fresh page. -/
theorem sinv_split_double (d d₂ : ExtendibleHTableDirectoryPage)
    (bi npid : Nat) (hS : SInv d) (hbi : bi < 2 ^ d.global_depth)
    (hld : d.get_local_depth bi = some d.global_depth)
    (hfresh : npid ∉ d.bucket_page_ids)
    (hinc : (d.increment_local_depth bi).increment_global_depth = some d₂) :
    SInv (d₂.set_bucket_page_id (d₂.get_split_image_index bi) npid) := by
  have hldD : dirL d bi = d.global_depth := dirL_of_get_local_depth hld
  have hldD' : d.local_depths.getD bi 0 = d.global_depth := hldD
  have hpow : (2:Nat) ^ (d.global_depth + 1) = 2 ^ d.global_depth + 2 ^ d.global_depth := by
    rw [Nat.pow_succ]; omega
  have hppos : (0:Nat) < 2 ^ d.global_depth := Nat.pos_pow_of_pos _ (by omega)
  have hbilen : bi < d.local_depths.length := by rw [hS.len_lds]; exact hbi
  have hbilen2 : bi < d.bucket_page_ids.length := by rw [hS.len_ids]; exact hbi
  -- unfold the chained increments
  have hd₂ : d₂ = ⟨d.bucket_page_ids ++ d.bucket_page_ids,
      (d.local_depths.set bi (d.global_depth + 1)) ++
        (d.local_depths.set bi (d.global_depth + 1)),
      d.max_depth, d.global_depth + 1⟩ := by
    unfold ExtendibleHTableDirectoryPage.increment_global_depth
      ExtendibleHTableDirectoryPage.increment_local_depth at hinc
    simp only at hinc
    rw [hldD'] at hinc
    split at hinc
    · exact absurd hinc (by simp)
    · split at hinc
      · have htake : (d.local_depths.set bi (d.global_depth + 1)).take
            d.bucket_page_ids.length =
            d.local_depths.set bi (d.global_depth + 1) := by
          have hlen : (d.local_depths.set bi (d.global_depth + 1)).length =
              d.bucket_page_ids.length := by
            rw [List.length_set, hS.len_lds, hS.len_ids]
          rw [← hlen, List.take_length]
        rw [htake] at hinc
        exact (Option.some.inj hinc).symm
      · exact absurd hinc (by simp)
  subst hd₂
  -- the split image index is bi + 2^gd
  have hsi : ExtendibleHTableDirectoryPage.get_split_image_index
      ⟨d.bucket_page_ids ++ d.bucket_page_ids,
        (d.local_depths.set bi (d.global_depth + 1)) ++
          (d.local_depths.set bi (d.global_depth + 1)),
        d.max_depth, d.global_depth + 1⟩ bi = bi + 2 ^ d.global_depth := by
    unfold ExtendibleHTableDirectoryPage.get_split_image_index
    simp only
    rw [getD_append_lt _ _ _ _ (by rw [List.length_set]; exact hbilen),
      getD_set_self _ _ _ _ hbilen]
    rw [if_neg (by omega)]
    simp only [Nat.add_sub_cancel]
    rw [xor_two_pow_of_mod_lt
      (by rw [Nat.mod_eq_of_lt (by omega)]; exact hbi)]
  rw [hsi]
  -- notation for the final directory
  set ids2 := (d.bucket_page_ids ++ d.bucket_page_ids).set
    (bi + 2 ^ d.global_depth) npid with hids2
  have hne_empty : (d.bucket_page_ids ++ d.bucket_page_ids).isEmpty = false := by
    have hnn : d.bucket_page_ids ≠ [] := by
      intro hnil
      rw [hnil] at hbilen2
      simp at hbilen2
    cases h : d.bucket_page_ids with
    | nil => exact absurd h hnn
    | cons a t => simp [h]
  have hF : ExtendibleHTableDirectoryPage.set_bucket_page_id
      ⟨d.bucket_page_ids ++ d.bucket_page_ids,
        (d.local_depths.set bi (d.global_depth + 1)) ++
          (d.local_depths.set bi (d.global_depth + 1)),
        d.max_depth, d.global_depth + 1⟩ (bi + 2 ^ d.global_depth) npid =
      ⟨ids2,
        (d.local_depths.set bi (d.global_depth + 1)) ++
          (d.local_depths.set bi (d.global_depth + 1)),
        d.max_depth, d.global_depth + 1⟩ := by
    unfold ExtendibleHTableDirectoryPage.set_bucket_page_id
    simp only [hne_empty]
    rfl
  rw [hF]
  set F : ExtendibleHTableDirectoryPage :=
    ⟨ids2,
      (d.local_depths.set bi (d.global_depth + 1)) ++
        (d.local_depths.set bi (d.global_depth + 1)),
      d.max_depth, d.global_depth + 1⟩ with hFdef
  have hlen_ids2 : ids2.length = 2 ^ (d.global_depth + 1) := by
    rw [hids2, List.length_set, List.length_append, hS.len_ids, hpow]
  have hlen_lds2 : F.local_depths.length = 2 ^ (d.global_depth + 1) := by
    show ((d.local_depths.set bi (d.global_depth + 1)) ++
      (d.local_depths.set bi (d.global_depth + 1))).length = _
    rw [List.length_append, List.length_set, hS.len_lds, hpow]
  -- positional characterisations
  have hPF_si : dirP F (bi + 2 ^ d.global_depth) = npid := by
    show ids2.getD _ 0 = npid
    rw [hids2]
    exact getD_set_self _ _ _ _
      (by rw [List.length_append, hS.len_ids]; omega)
  have hPF_lo : ∀ j, j < 2 ^ d.global_depth → dirP F j = dirP d j := by
    intro j hj
    show ids2.getD j 0 = _
    rw [hids2, getD_set_ne _ _ _ _ _ (by omega),
      getD_append_lt _ _ _ _ (by rw [hS.len_ids]; exact hj)]
    rfl
  have hPF_hi : ∀ j, 2 ^ d.global_depth ≤ j → j < 2 ^ (d.global_depth + 1) →
      j ≠ bi + 2 ^ d.global_depth → dirP F j = dirP d (j - 2 ^ d.global_depth) := by
    intro j hj1 hj2 hj3
    show ids2.getD j 0 = _
    rw [hids2, getD_set_ne _ _ _ _ _ (by omega),
      getD_append_ge _ _ _ _ (by rw [hS.len_ids]; exact hj1), hS.len_ids]
    rfl
  have hLF_lo : ∀ j, j < 2 ^ d.global_depth → j ≠ bi → dirL F j = dirL d j := by
    intro j hj hjbi
    show ((d.local_depths.set bi (d.global_depth + 1)) ++
      (d.local_depths.set bi (d.global_depth + 1))).getD j 0 = _
    rw [getD_append_lt _ _ _ _ (by rw [List.length_set, hS.len_lds]; exact hj),
      getD_set_ne _ _ _ _ _ (fun h => hjbi h.symm)]
    rfl
  have hLF_bi : dirL F bi = d.global_depth + 1 := by
    show ((d.local_depths.set bi (d.global_depth + 1)) ++
      (d.local_depths.set bi (d.global_depth + 1))).getD bi 0 = _
    rw [getD_append_lt _ _ _ _ (by rw [List.length_set, hS.len_lds]; exact hbi),
      getD_set_self _ _ _ _ hbilen]
  have hLF_hi : ∀ j, 2 ^ d.global_depth ≤ j → j < 2 ^ (d.global_depth + 1) →
      j - 2 ^ d.global_depth ≠ bi → dirL F j = dirL d (j - 2 ^ d.global_depth) := by
    intro j hj1 hj2 hj3
    show ((d.local_depths.set bi (d.global_depth + 1)) ++
      (d.local_depths.set bi (d.global_depth + 1))).getD j 0 = _
    rw [getD_append_ge _ _ _ _ (by rw [List.length_set, hS.len_lds]; exact hj1),
      List.length_set, hS.len_lds,
      getD_set_ne _ _ _ _ _ (fun h => hj3 h.symm)]
    rfl
  have hLF_si : dirL F (bi + 2 ^ d.global_depth) = d.global_depth + 1 := by
    show ((d.local_depths.set bi (d.global_depth + 1)) ++
      (d.local_depths.set bi (d.global_depth + 1))).getD _ 0 = _
    rw [getD_append_ge _ _ _ _ (by rw [List.length_set, hS.len_lds]; omega),
      List.length_set, hS.len_lds, Nat.add_sub_cancel,
      getD_set_self _ _ _ _ hbilen]
  -- untouched slots read through to `d`
  have untouched : ∀ i, i < 2 ^ (d.global_depth + 1) → i ≠ bi →
      i ≠ bi + 2 ^ d.global_depth →
      ∃ i₀, i₀ < 2 ^ d.global_depth ∧ i₀ ≠ bi ∧
        dirP F i = dirP d i₀ ∧ dirL F i = dirL d i₀ ∧
        (∀ l, l ≤ d.global_depth → i % 2 ^ l = i₀ % 2 ^ l) := by
    intro i hi hibi hisi
    by_cases h1 : i < 2 ^ d.global_depth
    · exact ⟨i, h1, hibi, hPF_lo i h1, hLF_lo i h1 hibi, fun l hl => rfl⟩
    · refine ⟨i - 2 ^ d.global_depth, by omega, fun h => hisi (by omega),
        hPF_hi i (by omega) hi hisi,
        hLF_hi i (by omega) hi (fun h => hisi (by omega)), fun l hl => ?_⟩
      conv_lhs => rw [show i = (i - 2 ^ d.global_depth) + 2 ^ d.global_depth by omega]
      exact add_pow_mod_lower _ hl
  -- the old page id occurs only at bi, and npid nowhere, in d
  have hone : ∀ j, j < 2 ^ d.global_depth → dirP d j = dirP d bi → j = bi := by
    intro j hj hpj
    have hcg := hS.pid_congr bi j hbi hj hpj
    rw [hldD] at hcg
    rw [Nat.mod_eq_of_lt hj, Nat.mod_eq_of_lt hbi] at hcg
    exact hcg
  have hnp : ∀ j, j < 2 ^ d.global_depth → dirP d j ≠ npid := by
    intro j hj h
    exact hfresh (h ▸ getD_mem _ _ _ (by rw [hS.len_ids]; exact hj))
  -- bi's slot is in nobody else's congruence class
  have hbi_class : ∀ i₀, i₀ < 2 ^ d.global_depth → i₀ ≠ bi →
      bi % 2 ^ dirL d i₀ ≠ i₀ % 2 ^ dirL d i₀ := by
    intro i₀ hi₀lt hi₀bi hcb
    obtain ⟨hPb, hLb⟩ := hS.class_eq i₀ bi hi₀lt hbi hcb
    rw [hldD] at hLb
    rw [← hLb] at hcb
    rw [Nat.mod_eq_of_lt hbi, Nat.mod_eq_of_lt hi₀lt] at hcb
    exact hi₀bi hcb.symm
  have hFgd : F.global_depth = d.global_depth + 1 := rfl
  constructor
  · rw [hFgd]; exact hlen_ids2
  · rw [hFgd]; exact hlen_lds2
  · -- ld_le
    intro i hi
    rw [hFgd] at hi ⊢
    by_cases h2 : i = bi
    · subst h2; rw [hLF_bi]
    · by_cases h3 : i = bi + 2 ^ d.global_depth
      · subst h3; rw [hLF_si]
      · obtain ⟨i₀, hi₀lt, _, _, hLFi, _⟩ := untouched i hi h2 h3
        rw [hLFi]
        exact Nat.le_succ_of_le (hS.ld_le i₀ hi₀lt)
  · -- class_eq
    intro i j hi hj hcong
    rw [hFgd] at hi hj
    by_cases hibi : i = bi
    · subst hibi
      rw [hLF_bi] at hcong
      rw [Nat.mod_eq_of_lt (by omega), Nat.mod_eq_of_lt (by omega)] at hcong
      subst hcong
      exact ⟨rfl, rfl⟩
    · by_cases hisi : i = bi + 2 ^ d.global_depth
      · subst hisi
        rw [hLF_si] at hcong
        rw [Nat.mod_eq_of_lt (by omega), Nat.mod_eq_of_lt (by omega)] at hcong
        subst hcong
        exact ⟨rfl, rfl⟩
      · obtain ⟨i₀, hi₀lt, hi₀bi, hPFi, hLFi, hshift_i⟩ :=
          untouched i hi hibi hisi
        have hl_le : dirL d i₀ ≤ d.global_depth := hS.ld_le i₀ hi₀lt
        rw [hLFi] at hcong
        have hcong' : j % 2 ^ dirL d i₀ = i₀ % 2 ^ dirL d i₀ := by
          rw [hcong]; exact hshift_i _ hl_le
        have hjbi : j ≠ bi := by
          intro h
          subst h
          exact hbi_class i₀ hi₀lt hi₀bi hcong'
        have hjsi : j ≠ bi + 2 ^ d.global_depth := by
          intro h
          apply hbi_class i₀ hi₀lt hi₀bi
          rw [← hcong']
          conv_rhs => rw [h]
          exact (add_pow_mod_lower bi hl_le).symm
        obtain ⟨j₀, hj₀lt, hj₀bi, hPFj, hLFj, hshift_j⟩ :=
          untouched j hj hjbi hjsi
        have hcong₀ : j₀ % 2 ^ dirL d i₀ = i₀ % 2 ^ dirL d i₀ := by
          rw [← hshift_j _ hl_le]; exact hcong'
        obtain ⟨hPeq, hLeq⟩ := hS.class_eq i₀ j₀ hi₀lt hj₀lt hcong₀
        rw [hPFj, hPFi, hLFj, hLFi]
        exact ⟨hPeq, hLeq⟩
  · -- pid_congr
    intro i j hi hj hpeq
    rw [hFgd] at hi hj
    by_cases hibi : i = bi
    · rw [hibi] at hpeq ⊢
      rw [hPF_lo bi hbi] at hpeq
      rw [hLF_bi]
      have hjbi : j = bi := by
        by_cases hjsi : j = bi + 2 ^ d.global_depth
        · exfalso
          rw [hjsi, hPF_si] at hpeq
          exact hnp bi hbi hpeq.symm
        · by_cases hjb : j = bi
          · exact hjb
          · exfalso
            obtain ⟨j₀, hj₀lt, hj₀bi, hPFj, _, _⟩ := untouched j hj hjb hjsi
            rw [hPFj] at hpeq
            exact hj₀bi (hone j₀ hj₀lt hpeq)
      subst hjbi; rfl
    · by_cases hisi : i = bi + 2 ^ d.global_depth
      · subst hisi
        rw [hPF_si] at hpeq
        rw [hLF_si]
        have hjsi : j = bi + 2 ^ d.global_depth := by
          by_cases hjs : j = bi + 2 ^ d.global_depth
          · exact hjs
          · exfalso
            by_cases hjb : j = bi
            · rw [hjb, hPF_lo bi hbi] at hpeq
              exact hnp bi hbi hpeq
            · obtain ⟨j₀, hj₀lt, _, hPFj, _, _⟩ := untouched j hj hjb hjs
              rw [hPFj] at hpeq
              exact hnp j₀ hj₀lt hpeq
        subst hjsi; rfl
      · obtain ⟨i₀, hi₀lt, hi₀bi, hPFi, hLFi, hshift_i⟩ :=
          untouched i hi hibi hisi
        have hl_le : dirL d i₀ ≤ d.global_depth := hS.ld_le i₀ hi₀lt
        rw [hPFi] at hpeq
        have hjsi : j ≠ bi + 2 ^ d.global_depth := by
          intro h
          rw [h, hPF_si] at hpeq
          exact hnp i₀ hi₀lt hpeq.symm
        have hjbi : j ≠ bi := by
          intro h
          rw [h, hPF_lo bi hbi] at hpeq
          have := hone i₀ hi₀lt hpeq.symm
          exact hi₀bi this
        obtain ⟨j₀, hj₀lt, hj₀bi, hPFj, hLFj, hshift_j⟩ :=
          untouched j hj hjbi hjsi
        rw [hPFj] at hpeq
        have hcong₀ := hS.pid_congr i₀ j₀ hi₀lt hj₀lt hpeq
        rw [hLFi, hshift_j _ hl_le, hshift_i _ hl_le]
        exact hcong₀

/-- The state of the non-doubling split loop after its first `m`
iterations: slots of the split class (`j ≡ bi` mod `2^(ld+1)`) with
index below `m` have had their depth bumped, and their split images
(`j ^^^ 2^ld`, the slots `≡ bi ^^^ 2^ld`) bumped and repointed at the
fresh page.  Everything else is untouched. -/
def split_stage (d₀ : ExtendibleHTableDirectoryPage)
    (bi ld npid m : Nat) (dm : ExtendibleHTableDirectoryPage) : Prop :=
  dm.global_depth = d₀.global_depth ∧
  dm.max_depth = d₀.max_depth ∧
  dm.bucket_page_ids.length = d₀.bucket_page_ids.length ∧
  dm.local_depths.length = d₀.local_depths.length ∧
  (∀ j, j < 2 ^ d₀.global_depth →
    dirP dm j = if j % 2 ^ (ld + 1) = (bi % 2 ^ (ld + 1)) ^^^ 2 ^ ld ∧
        (j ^^^ 2 ^ ld) < m then npid else dirP d₀ j) ∧
  (∀ j, j < 2 ^ d₀.global_depth →
    dirL dm j = if (j % 2 ^ (ld + 1) = bi % 2 ^ (ld + 1) ∧ j < m) ∨
        (j % 2 ^ (ld + 1) = (bi % 2 ^ (ld + 1)) ^^^ 2 ^ ld ∧
          (j ^^^ 2 ^ ld) < m) then ld + 1 else dirL d₀ j)

theorem split_stage_zero (d₀ : ExtendibleHTableDirectoryPage)
    (bi ld npid : Nat) : split_stage d₀ bi ld npid 0 d₀ := by
  refine ⟨rfl, rfl, rfl, rfl, fun j hj => ?_, fun j hj => ?_⟩
  · rw [if_neg (by omega)]
  · rw [if_neg (by omega)]

theorem split_stage_step (d₀ : ExtendibleHTableDirectoryPage)
    (bi ld npid m : Nat) (hS : SInv d₀) (hbi : bi < 2 ^ d₀.global_depth)
    (hld : dirL d₀ bi = ld) (hlt : ld < d₀.global_depth)
    (hm : m < 2 ^ d₀.global_depth)
    (hstage : split_stage d₀ bi ld npid m
      (ExtendibleHashTable.split_slots bi (ld + 1) npid m d₀)) :
    split_stage d₀ bi ld npid (m + 1)
      (ExtendibleHashTable.split_slots bi (ld + 1) npid (m + 1) d₀) := by
  obtain ⟨hgd, hmd, hli, hll, hP, hL⟩ := hstage
  set dm := ExtendibleHashTable.split_slots bi (ld + 1) npid m d₀ with hdm
  have hstep : ExtendibleHashTable.split_slots bi (ld + 1) npid (m + 1) d₀ =
      if m % 2 ^ (ld + 1) = bi % 2 ^ (ld + 1) then
        let dir := dm.increment_local_depth m
        let si := dir.get_split_image_index m
        let dir := dir.increment_local_depth si
        dir.set_bucket_page_id si npid
      else dm := by
    rw [ExtendibleHashTable.split_slots]
  -- shared residue facts
  have hMpos : (0:Nat) < 2 ^ (ld + 1) := Nat.pos_pow_of_pos _ (by omega)
  have ha'inv : ((bi % 2 ^ (ld + 1)) ^^^ 2 ^ ld) ^^^ 2 ^ ld = bi % 2 ^ (ld + 1) :=
    xor_two_pow_invol _ _
  have haa' : (bi % 2 ^ (ld + 1)) ^^^ 2 ^ ld ≠ bi % 2 ^ (ld + 1) :=
    xor_two_pow_ne _ _
  have hpairmod : ∀ j : Nat, (j ^^^ 2 ^ ld) % 2 ^ (ld + 1) =
      (j % 2 ^ (ld + 1)) ^^^ 2 ^ ld := fun j => xor_mod_two_pow_succ ld j
  have hK1 : ∀ j, j < 2 ^ d₀.global_depth → j % 2 ^ ld = bi % 2 ^ ld →
      dirL d₀ j = ld ∧ dirP d₀ j = dirP d₀ bi := by
    intro j hj hcong
    have := hS.class_eq bi j hbi hj (by rw [hld]; exact hcong)
    exact ⟨this.2.trans hld, this.1⟩
  have hlowa : ∀ j : Nat, j % 2 ^ (ld + 1) = bi % 2 ^ (ld + 1) →
      j % 2 ^ ld = bi % 2 ^ ld := fun j h => mod_pow_succ_lower j bi h
  have hlowa' : ∀ j : Nat,
      j % 2 ^ (ld + 1) = (bi % 2 ^ (ld + 1)) ^^^ 2 ^ ld →
      j % 2 ^ ld = bi % 2 ^ ld := by
    intro j h
    apply xor_mod_pow_succ_lower j bi
    exact h
  rw [hstep]
  by_cases hcond : m % 2 ^ (ld + 1) = bi % 2 ^ (ld + 1)
  · rw [if_pos hcond]
    simp only
    -- the body's reads
    have hLdm_m : dirL dm m = ld := by
      rw [hL m hm, if_neg ?_]
      · exact (hK1 m hm (hlowa m hcond)).1
      · rintro (⟨_, hlt'⟩ | ⟨heq, _⟩)
        · omega
        · rw [hcond] at heq
          exact haa' heq.symm
    have hmlen : m < dm.local_depths.length := by
      rw [hll, hS.len_lds]; exact hm
    have hinc1 : dm.increment_local_depth m =
        ⟨dm.bucket_page_ids, dm.local_depths.set m (ld + 1),
          dm.max_depth, dm.global_depth⟩ := by
      unfold ExtendibleHTableDirectoryPage.increment_local_depth
      have : dm.local_depths.getD m 0 = ld := hLdm_m
      rw [this]
    have hsi : (dm.increment_local_depth m).get_split_image_index m =
        m ^^^ 2 ^ ld := by
      rw [hinc1]
      unfold ExtendibleHTableDirectoryPage.get_split_image_index
      simp only
      rw [getD_set_self _ _ _ _ hmlen, if_neg (by omega), Nat.add_sub_cancel]
    rw [hsi, hinc1]
    have hpair_lt : m ^^^ 2 ^ ld < 2 ^ d₀.global_depth :=
      xor_two_pow_lt hm hlt
    have hpair_ne : m ^^^ 2 ^ ld ≠ m := xor_two_pow_ne _ _
    have hpair_res : (m ^^^ 2 ^ ld) % 2 ^ (ld + 1) =
        (bi % 2 ^ (ld + 1)) ^^^ 2 ^ ld := by
      rw [hpairmod m, hcond]
    have hLdm_si : dirL dm (m ^^^ 2 ^ ld) = ld := by
      rw [hL _ hpair_lt, if_neg ?_]
      · exact (hK1 _ hpair_lt (hlowa' _ hpair_res)).1
      · rintro (⟨heq, _⟩ | ⟨_, hlt'⟩)
        · rw [hpair_res] at heq
          exact haa' heq
        · rw [xor_two_pow_invol] at hlt'
          omega
    have hsilen : (m ^^^ 2 ^ ld) < (dm.local_depths.set m (ld + 1)).length := by
      rw [List.length_set, hll, hS.len_lds]; exact hpair_lt
    have hinc2 : ExtendibleHTableDirectoryPage.increment_local_depth
        ⟨dm.bucket_page_ids, dm.local_depths.set m (ld + 1),
          dm.max_depth, dm.global_depth⟩ (m ^^^ 2 ^ ld) =
        ⟨dm.bucket_page_ids,
          (dm.local_depths.set m (ld + 1)).set (m ^^^ 2 ^ ld) (ld + 1),
          dm.max_depth, dm.global_depth⟩ := by
      unfold ExtendibleHTableDirectoryPage.increment_local_depth
      have hrd : (dm.local_depths.set m (ld + 1)).getD (m ^^^ 2 ^ ld) 0 = ld := by
        rw [getD_set_ne _ _ _ _ _ (fun h => hpair_ne h.symm)]
        exact hLdm_si
      rw [hrd]
    rw [hinc2]
    have hne_empty : dm.bucket_page_ids.isEmpty = false := by
      have hpos : 0 < dm.bucket_page_ids.length := by
        rw [hli, hS.len_ids]
        exact Nat.pos_pow_of_pos _ (by omega)
      cases h : dm.bucket_page_ids with
      | nil => rw [h] at hpos; simp at hpos
      | cons a t => simp [h]
    have hset : ExtendibleHTableDirectoryPage.set_bucket_page_id
        ⟨dm.bucket_page_ids,
          (dm.local_depths.set m (ld + 1)).set (m ^^^ 2 ^ ld) (ld + 1),
          dm.max_depth, dm.global_depth⟩ (m ^^^ 2 ^ ld) npid =
        ⟨dm.bucket_page_ids.set (m ^^^ 2 ^ ld) npid,
          (dm.local_depths.set m (ld + 1)).set (m ^^^ 2 ^ ld) (ld + 1),
          dm.max_depth, dm.global_depth⟩ := by
      unfold ExtendibleHTableDirectoryPage.set_bucket_page_id
      simp only [hne_empty]
      rfl
    rw [hset]
    have hsilen2 : (m ^^^ 2 ^ ld) < dm.bucket_page_ids.length := by
      rw [hli, hS.len_ids]; exact hpair_lt
    refine ⟨hgd, hmd, by rw [List.length_set]; exact hli,
      by rw [List.length_set, List.length_set]; exact hll,
      fun j hj => ?_, fun j hj => ?_⟩
    · -- page ids after this iteration
      show (dm.bucket_page_ids.set (m ^^^ 2 ^ ld) npid).getD j 0 = _
      by_cases hjsi : j = m ^^^ 2 ^ ld
      · subst hjsi
        rw [getD_set_self _ _ _ _ hsilen2, if_pos ?_]
        refine ⟨hpair_res, ?_⟩
        rw [xor_two_pow_invol]
        omega
      · rw [getD_set_ne _ _ _ _ _ (fun h => hjsi h.symm)]
        have hPj := hP j hj
        unfold dirP at hPj
        rw [hPj]
        by_cases hc1 : j % 2 ^ (ld + 1) = (bi % 2 ^ (ld + 1)) ^^^ 2 ^ ld ∧
            (j ^^^ 2 ^ ld) < m
        · rw [if_pos hc1, if_pos ⟨hc1.1, by omega⟩]
        · have hnc : ¬(j % 2 ^ (ld + 1) = (bi % 2 ^ (ld + 1)) ^^^ 2 ^ ld ∧
              (j ^^^ 2 ^ ld) < m + 1) := by
            rintro ⟨hr, hlt'⟩
            apply hc1
            refine ⟨hr, ?_⟩
            rcases Nat.lt_or_ge (j ^^^ 2 ^ ld) m with h | h
            · exact h
            · exfalso
              have heq : j ^^^ 2 ^ ld = m := by omega
              apply hjsi
              rw [← heq, xor_two_pow_invol]
          rw [if_neg hc1, if_neg hnc]
          rfl
    · -- local depths after this iteration
      show ((dm.local_depths.set m (ld + 1)).set (m ^^^ 2 ^ ld) (ld + 1)).getD j 0 = _
      by_cases hjsi : j = m ^^^ 2 ^ ld
      · subst hjsi
        rw [getD_set_self _ _ _ _ hsilen]
        rw [if_pos (Or.inr ⟨hpair_res, by rw [xor_two_pow_invol]; omega⟩)]
      · rw [getD_set_ne _ _ _ _ _ (fun h => hjsi h.symm)]
        by_cases hjm : j = m
        · subst hjm
          rw [getD_set_self _ _ _ _ hmlen]
          rw [if_pos (Or.inl ⟨hcond, by omega⟩)]
        · rw [getD_set_ne _ _ _ _ _ (fun h => hjm h.symm)]
          have hLj := hL j hj
          unfold dirL at hLj
          rw [hLj]
          by_cases hc1 : (j % 2 ^ (ld + 1) = bi % 2 ^ (ld + 1) ∧ j < m) ∨
              (j % 2 ^ (ld + 1) = (bi % 2 ^ (ld + 1)) ^^^ 2 ^ ld ∧
                (j ^^^ 2 ^ ld) < m)
          · have hpc : (j % 2 ^ (ld + 1) = bi % 2 ^ (ld + 1) ∧ j < m + 1) ∨
                (j % 2 ^ (ld + 1) = (bi % 2 ^ (ld + 1)) ^^^ 2 ^ ld ∧
                  (j ^^^ 2 ^ ld) < m + 1) := by
              rcases hc1 with ⟨h1, h2⟩ | ⟨h1, h2⟩
              · exact Or.inl ⟨h1, by omega⟩
              · exact Or.inr ⟨h1, by omega⟩
            rw [if_pos hc1, if_pos hpc]
          · have hnc : ¬((j % 2 ^ (ld + 1) = bi % 2 ^ (ld + 1) ∧ j < m + 1) ∨
                (j % 2 ^ (ld + 1) = (bi % 2 ^ (ld + 1)) ^^^ 2 ^ ld ∧
                  (j ^^^ 2 ^ ld) < m + 1)) := by
              rintro (⟨h1, h2⟩ | ⟨h1, h2⟩)
              · apply hc1
                left
                refine ⟨h1, ?_⟩
                rcases Nat.lt_or_ge j m with h | h
                · exact h
                · exfalso
                  have heq : j = m := by omega
                  exact hjm heq
              · apply hc1
                right
                refine ⟨h1, ?_⟩
                rcases Nat.lt_or_ge (j ^^^ 2 ^ ld) m with h | h
                · exact h
                · exfalso
                  have heq : j ^^^ 2 ^ ld = m := by omega
                  apply hjsi
                  rw [← heq, xor_two_pow_invol]
            rw [if_neg hc1, if_neg hnc]
            rfl
  · rw [if_neg hcond]
    refine ⟨hgd, hmd, hli, hll, fun j hj => ?_, fun j hj => ?_⟩
    · rw [hP j hj]
      by_cases hc1 : j % 2 ^ (ld + 1) = (bi % 2 ^ (ld + 1)) ^^^ 2 ^ ld ∧
          (j ^^^ 2 ^ ld) < m
      · rw [if_pos hc1, if_pos ⟨hc1.1, by omega⟩]
      · have hnc : ¬(j % 2 ^ (ld + 1) = (bi % 2 ^ (ld + 1)) ^^^ 2 ^ ld ∧
            (j ^^^ 2 ^ ld) < m + 1) := by
          rintro ⟨hr, hlt'⟩
          apply hc1
          refine ⟨hr, ?_⟩
          rcases Nat.lt_or_ge (j ^^^ 2 ^ ld) m with h | h
          · exact h
          · exfalso
            have heq : j ^^^ 2 ^ ld = m := by omega
            apply hcond
            rw [← heq, hpairmod j, hr, ha'inv]
        rw [if_neg hc1, if_neg hnc]
    · rw [hL j hj]
      by_cases hc1 : (j % 2 ^ (ld + 1) = bi % 2 ^ (ld + 1) ∧ j < m) ∨
          (j % 2 ^ (ld + 1) = (bi % 2 ^ (ld + 1)) ^^^ 2 ^ ld ∧
            (j ^^^ 2 ^ ld) < m)
      · rcases hc1 with ⟨h1, h2⟩ | ⟨h1, h2⟩
        · rw [if_pos (Or.inl ⟨h1, h2⟩), if_pos (Or.inl ⟨h1, by omega⟩)]
        · rw [if_pos (Or.inr ⟨h1, h2⟩), if_pos (Or.inr ⟨h1, by omega⟩)]
      · have hnc : ¬((j % 2 ^ (ld + 1) = bi % 2 ^ (ld + 1) ∧ j < m + 1) ∨
            (j % 2 ^ (ld + 1) = (bi % 2 ^ (ld + 1)) ^^^ 2 ^ ld ∧
              (j ^^^ 2 ^ ld) < m + 1)) := by
          rintro (⟨h1, h2⟩ | ⟨h1, h2⟩)
          · apply hc1
            left
            refine ⟨h1, ?_⟩
            rcases Nat.lt_or_ge j m with h | h
            · exact h
            · exfalso
              have heq : j = m := by omega
              rw [heq] at h1
              exact hcond h1
          · apply hc1
            right
            refine ⟨h1, ?_⟩
            rcases Nat.lt_or_ge (j ^^^ 2 ^ ld) m with h | h
            · exact h
            · exfalso
              have heq : j ^^^ 2 ^ ld = m := by omega
              apply hcond
              rw [← heq, hpairmod j, h1, ha'inv]
        rw [if_neg hc1, if_neg hnc]

theorem split_stage_full (d₀ : ExtendibleHTableDirectoryPage)
    (bi ld npid : Nat) (hS : SInv d₀) (hbi : bi < 2 ^ d₀.global_depth)
    (hld : dirL d₀ bi = ld) (hlt : ld < d₀.global_depth) :
    split_stage d₀ bi ld npid (2 ^ d₀.global_depth)
      (ExtendibleHashTable.split_slots bi (ld + 1) npid
        (2 ^ d₀.global_depth) d₀) := by
  suffices h : ∀ m, m ≤ 2 ^ d₀.global_depth → split_stage d₀ bi ld npid m
      (ExtendibleHashTable.split_slots bi (ld + 1) npid m d₀) from
    h _ (Nat.le_refl _)
  intro m
  induction m with
  | zero => exact fun _ => split_stage_zero d₀ bi ld npid
  | succ k ih =>
    intro hk
    exact split_stage_step d₀ bi ld npid k hS hbi hld hlt (by omega)
      (ih (by omega))

/-- Preservation of `SInv` by the non-doubling split loop. -/
theorem sinv_split_level (d₀ : ExtendibleHTableDirectoryPage)
    (bi ld npid : Nat) (hS : SInv d₀) (hbi : bi < 2 ^ d₀.global_depth)
    (hld : d₀.get_local_depth bi = some ld) (hne : ld ≠ d₀.global_depth)
    (hfresh : npid ∉ d₀.bucket_page_ids) :
    SInv (ExtendibleHashTable.split_slots bi (ld + 1) npid
      (2 ^ d₀.global_depth) d₀) := by
  have hldD : dirL d₀ bi = ld := dirL_of_get_local_depth hld
  have hlt : ld < d₀.global_depth := by
    have := hS.ld_le bi hbi
    rw [hldD] at this
    omega
  obtain ⟨hgd, hmd, hli, hll, hP0, hL0⟩ :=
    split_stage_full d₀ bi ld npid hS hbi hldD hlt
  set F := ExtendibleHashTable.split_slots bi (ld + 1) npid
    (2 ^ d₀.global_depth) d₀ with hFdef
  have hMpos : (0:Nat) < 2 ^ (ld + 1) := Nat.pos_pow_of_pos _ (by omega)
  have haa' : (bi % 2 ^ (ld + 1)) ^^^ 2 ^ ld ≠ bi % 2 ^ (ld + 1) :=
    xor_two_pow_ne _ _
  have hpairlt : ∀ j, j < 2 ^ d₀.global_depth →
      j ^^^ 2 ^ ld < 2 ^ d₀.global_depth := fun j hj => xor_two_pow_lt hj hlt
  -- simplified reads at the completed loop
  have hP : ∀ j, j < 2 ^ d₀.global_depth → dirP F j =
      if j % 2 ^ (ld + 1) = (bi % 2 ^ (ld + 1)) ^^^ 2 ^ ld then npid
      else dirP d₀ j := by
    intro j hj
    rw [hP0 j hj]
    by_cases hr : j % 2 ^ (ld + 1) = (bi % 2 ^ (ld + 1)) ^^^ 2 ^ ld
    · rw [if_pos ⟨hr, hpairlt j hj⟩, if_pos hr]
    · rw [if_neg (fun hc => hr hc.1), if_neg hr]
  have hL : ∀ j, j < 2 ^ d₀.global_depth → dirL F j =
      if j % 2 ^ (ld + 1) = bi % 2 ^ (ld + 1) ∨
          j % 2 ^ (ld + 1) = (bi % 2 ^ (ld + 1)) ^^^ 2 ^ ld then ld + 1
      else dirL d₀ j := by
    intro j hj
    rw [hL0 j hj]
    by_cases hr : j % 2 ^ (ld + 1) = bi % 2 ^ (ld + 1) ∨
        j % 2 ^ (ld + 1) = (bi % 2 ^ (ld + 1)) ^^^ 2 ^ ld
    · rcases hr with hr | hr
      · rw [if_pos (Or.inl ⟨hr, hj⟩), if_pos (Or.inl hr)]
      · rw [if_pos (Or.inr ⟨hr, hpairlt j hj⟩), if_pos (Or.inr hr)]
    · push_neg at hr
      rw [if_neg ?_, if_neg ?_]
      · rintro (h | h)
        · exact hr.1 h
        · exact hr.2 h
      · rintro (⟨h, _⟩ | ⟨h, _⟩)
        · exact hr.1 h
        · exact hr.2 h
  have hK1 : ∀ j, j < 2 ^ d₀.global_depth → j % 2 ^ ld = bi % 2 ^ ld →
      dirL d₀ j = ld ∧ dirP d₀ j = dirP d₀ bi := by
    intro j hj hcong
    have := hS.class_eq bi j hbi hj (by rw [hldD]; exact hcong)
    exact ⟨this.2.trans hldD, this.1⟩
  have hlowa : ∀ j : Nat, j % 2 ^ (ld + 1) = bi % 2 ^ (ld + 1) →
      j % 2 ^ ld = bi % 2 ^ ld := fun j h => mod_pow_succ_lower j bi h
  have hlowa' : ∀ j : Nat,
      j % 2 ^ (ld + 1) = (bi % 2 ^ (ld + 1)) ^^^ 2 ^ ld →
      j % 2 ^ ld = bi % 2 ^ ld := fun j h => xor_mod_pow_succ_lower j bi h
  have hupa : ∀ j : Nat, j % 2 ^ ld = bi % 2 ^ ld →
      j % 2 ^ (ld + 1) = bi % 2 ^ (ld + 1) ∨
      j % 2 ^ (ld + 1) = (bi % 2 ^ (ld + 1)) ^^^ 2 ^ ld :=
    fun j h => mod_pow_succ_split j bi h
  have hnp : ∀ j, j < 2 ^ d₀.global_depth → dirP d₀ j ≠ npid := by
    intro j hj h
    exact hfresh (h ▸ getD_mem _ _ _ (by rw [hS.len_ids]; exact hj))
  -- untouched slots are not congruent to bi at depth ld
  have huntouched : ∀ i, i < 2 ^ d₀.global_depth →
      ¬(i % 2 ^ (ld + 1) = bi % 2 ^ (ld + 1)) →
      ¬(i % 2 ^ (ld + 1) = (bi % 2 ^ (ld + 1)) ^^^ 2 ^ ld) →
      ¬(i % 2 ^ ld = bi % 2 ^ ld) := by
    intro i _ h1 h2 hc
    rcases hupa i hc with h | h
    · exact h1 h
    · exact h2 h
  constructor
  · rw [hgd, hli, hS.len_ids]
  · rw [hgd, hll, hS.len_lds]
  · -- ld_le
    intro i hi
    rw [hgd] at hi ⊢
    rw [hL i hi]
    split
    · omega
    · exact Nat.le_trans (hS.ld_le i hi) (Nat.le_refl _)
  · -- class_eq
    intro i j hi hj hcong
    rw [hgd] at hi hj
    rw [hL i hi] at hcong
    by_cases hia : i % 2 ^ (ld + 1) = bi % 2 ^ (ld + 1)
    · rw [if_pos (Or.inl hia)] at hcong
      have hja : j % 2 ^ (ld + 1) = bi % 2 ^ (ld + 1) := hcong.trans hia
      have hja' : ¬ j % 2 ^ (ld + 1) = (bi % 2 ^ (ld + 1)) ^^^ 2 ^ ld := by
        rw [hja]; exact fun h => haa' h.symm
      have hia' : ¬ i % 2 ^ (ld + 1) = (bi % 2 ^ (ld + 1)) ^^^ 2 ^ ld := by
        rw [hia]; exact fun h => haa' h.symm
      rw [hP j hj, hP i hi, hL j hj, hL i hi,
        if_neg hja', if_neg hia', if_pos (Or.inl hja), if_pos (Or.inl hia)]
      exact ⟨((hK1 j hj (hlowa j hja)).2).trans ((hK1 i hi (hlowa i hia)).2).symm, rfl⟩
    · by_cases hia' : i % 2 ^ (ld + 1) = (bi % 2 ^ (ld + 1)) ^^^ 2 ^ ld
      · rw [if_pos (Or.inr hia')] at hcong
        have hja' : j % 2 ^ (ld + 1) = (bi % 2 ^ (ld + 1)) ^^^ 2 ^ ld :=
          hcong.trans hia'
        rw [hP j hj, hP i hi, hL j hj, hL i hi,
          if_pos hja', if_pos hia', if_pos (Or.inr hja'), if_pos (Or.inr hia')]
        exact ⟨rfl, rfl⟩
      · rw [if_neg (by rintro (h | h); exacts [hia h, hia' h])] at hcong
        have hilow : ¬ i % 2 ^ ld = bi % 2 ^ ld := huntouched i hi hia hia'
        have hl_le : dirL d₀ i ≤ d₀.global_depth := hS.ld_le i hi
        have hja : ¬ j % 2 ^ (ld + 1) = bi % 2 ^ (ld + 1) := by
          intro hj1
          have hjlow : j % 2 ^ ld = bi % 2 ^ ld := hlowa j hj1
          obtain ⟨hPji, hLji⟩ := hS.class_eq i j hi hj hcong
          have hldj : dirL d₀ j = ld := (hK1 j hj hjlow).1
          have hldi : dirL d₀ i = ld := by rw [← hLji]; exact hldj
          apply hilow
          rw [← hldi]
          calc i % 2 ^ dirL d₀ i = j % 2 ^ dirL d₀ i := hcong.symm
          _ = bi % 2 ^ dirL d₀ i := by rw [hldi]; exact hjlow
        have hja' : ¬ j % 2 ^ (ld + 1) = (bi % 2 ^ (ld + 1)) ^^^ 2 ^ ld := by
          intro hj1
          have hjlow : j % 2 ^ ld = bi % 2 ^ ld := hlowa' j hj1
          obtain ⟨hPji, hLji⟩ := hS.class_eq i j hi hj hcong
          have hldj : dirL d₀ j = ld := (hK1 j hj hjlow).1
          have hldi : dirL d₀ i = ld := by rw [← hLji]; exact hldj
          apply hilow
          rw [← hldi]
          calc i % 2 ^ dirL d₀ i = j % 2 ^ dirL d₀ i := hcong.symm
          _ = bi % 2 ^ dirL d₀ i := by rw [hldi]; exact hjlow
        obtain ⟨hPji, hLji⟩ := hS.class_eq i j hi hj hcong
        rw [hP j hj, hP i hi, hL j hj, hL i hi,
          if_neg hja', if_neg hia',
          if_neg (by rintro (h | h); exacts [hja h, hja' h]),
          if_neg (by rintro (h | h); exacts [hia h, hia' h])]
        exact ⟨hPji, hLji⟩
  · -- pid_congr
    intro i j hi hj hpeq
    rw [hgd] at hi hj
    rw [hP j hj, hP i hi] at hpeq
    rw [hL i hi]
    by_cases hia' : i % 2 ^ (ld + 1) = (bi % 2 ^ (ld + 1)) ^^^ 2 ^ ld
    · rw [if_pos hia'] at hpeq
      rw [if_pos (Or.inr hia')]
      have hja' : j % 2 ^ (ld + 1) = (bi % 2 ^ (ld + 1)) ^^^ 2 ^ ld := by
        by_contra hc
        rw [if_neg hc] at hpeq
        exact hnp j hj hpeq
      rw [hja', hia']
    · rw [if_neg hia'] at hpeq
      by_cases hia : i % 2 ^ (ld + 1) = bi % 2 ^ (ld + 1)
      · rw [if_pos (Or.inl hia)]
        have hPi : dirP d₀ i = dirP d₀ bi := (hK1 i hi (hlowa i hia)).2
        have hja' : ¬ j % 2 ^ (ld + 1) = (bi % 2 ^ (ld + 1)) ^^^ 2 ^ ld := by
          intro hc
          rw [if_pos hc] at hpeq
          exact hnp i hi (hpeq.symm.trans rfl) |>.elim
        rw [if_neg hja'] at hpeq
        have hjbi : j % 2 ^ ld = bi % 2 ^ ld := by
          have := hS.pid_congr bi j hbi hj (hpeq.trans hPi)
          rw [hldD] at this
          exact this
        have hja : j % 2 ^ (ld + 1) = bi % 2 ^ (ld + 1) := by
          rcases hupa j hjbi with h | h
          · exact h
          · exact absurd h hja'
        rw [hja, hia]
      · rw [if_neg (by rintro (h | h); exacts [hia h, hia' h])]
        have hilow : ¬ i % 2 ^ ld = bi % 2 ^ ld := huntouched i hi hia hia'
        have hja' : ¬ j % 2 ^ (ld + 1) = (bi % 2 ^ (ld + 1)) ^^^ 2 ^ ld := by
          intro hc
          rw [if_pos hc] at hpeq
          exact hnp i hi hpeq.symm
        rw [if_neg hja'] at hpeq
        have hja : ¬ j % 2 ^ (ld + 1) = bi % 2 ^ (ld + 1) := by
          intro hc
          have hPj : dirP d₀ j = dirP d₀ bi := (hK1 j hj (hlowa j hc)).2
          have : dirP d₀ i = dirP d₀ bi := by rw [← hpeq]; exact hPj
          have := hS.pid_congr bi i hbi hi this
          rw [hldD] at this
          exact hilow this
        exact hS.pid_congr i j hi hj hpeq

/-- Installing the first bucket into a fresh directory yields `SInv`. -/
theorem sinv_install (d : ExtendibleHTableDirectoryPage) (bi npid : Nat)
    (hfresh : FreshShape d) (hbi : bi < 2 ^ d.global_depth) :
    SInv (d.set_bucket_page_id bi npid) := by
  obtain ⟨hids, hlds, hgd⟩ := hfresh
  have hbi0 : bi = 0 := by rw [hgd] at hbi; simpa using hbi
  subst hbi0
  have hset : d.set_bucket_page_id 0 npid =
      ⟨[npid], d.local_depths, d.max_depth, d.global_depth⟩ := by
    unfold ExtendibleHTableDirectoryPage.set_bucket_page_id
    rw [hids]
    rfl
  rw [hset]
  refine ⟨by rw [hgd]; rfl, by rw [hlds, hgd]; rfl, ?_, ?_, ?_⟩
  · intro i hi
    rw [hgd] at hi
    have : i = 0 := by simpa using hi
    subst this
    rw [hgd]
    simp [dirL, hlds]
  · intro i j hi hj _
    rw [hgd] at hi hj
    have hi0 : i = 0 := by simpa using hi
    have hj0 : j = 0 := by simpa using hj
    subst hi0; subst hj0
    exact ⟨rfl, rfl⟩
  · intro i j hi hj _
    rw [hgd] at hi hj
    have hi0 : i = 0 := by simpa using hi
    have hj0 : j = 0 := by simpa using hj
    subst hi0; subst hj0
    rfl

/-- The directory states the insert/split protocol can produce.  Each
constructor is one of the directory transformations `insert_internal`
performs between consecutive writes of the directory page:

* `fresh` — `ExtendibleHTableDirectoryPage::new`;
* `install` — installing a bucket page id into an empty slot (the
  routed index is below `2^global_depth`);
* `split_double` — the `local_depth == global_depth` split (the split
  always acts on an occupied slot, the `unwrap`ped local depth is the
  global depth, and `increment_global_depth` succeeded);
* `split_level` — the `local_depth != global_depth` split loop.

The freshly allocated page id of a split (`npid`) comes from the
pool's `allocate_page`, which returns ids strictly larger than every
previously returned id, so it differs from every page id already in
the directory; that freshness is the `npid ∉ d.bucket_page_ids`
hypothesis. -/
inductive DirReachable : ExtendibleHTableDirectoryPage → Prop where
  | fresh (max_depth : Nat) :
      DirReachable (ExtendibleHTableDirectoryPage.new max_depth)
  | install (d : ExtendibleHTableDirectoryPage) (bi npid : Nat) :
      DirReachable d → bi < 2 ^ d.global_depth →
      d.get_bucket_page_id bi = none →
      DirReachable (d.set_bucket_page_id bi npid)
  | split_double (d d₂ : ExtendibleHTableDirectoryPage) (bi npid : Nat) :
      DirReachable d → bi < 2 ^ d.global_depth →
      (d.get_bucket_page_id bi).isSome = true →
      d.get_local_depth bi = some d.global_depth →
      npid ∉ d.bucket_page_ids →
      (d.increment_local_depth bi).increment_global_depth = some d₂ →
      DirReachable (d₂.set_bucket_page_id (d₂.get_split_image_index bi) npid)
  | split_level (d : ExtendibleHTableDirectoryPage) (bi ld npid : Nat) :
      DirReachable d → bi < 2 ^ d.global_depth →
      (d.get_bucket_page_id bi).isSome = true →
      d.get_local_depth bi = some ld →
      ld ≠ d.global_depth →
      npid ∉ d.bucket_page_ids →
      DirReachable (ExtendibleHashTable.split_slots bi (ld + 1) npid
        d.get_size d)

theorem fresh_no_bucket {d : ExtendibleHTableDirectoryPage} {bi : Nat}
    (hf : FreshShape d) : (d.get_bucket_page_id bi).isSome = false := by
  unfold ExtendibleHTableDirectoryPage.get_bucket_page_id
  rw [hf.1]
  simp

/-- Every protocol-reachable directory satisfies the strengthened
invariant, or is still in the freshly constructed shape. -/
theorem dir_reachable_sinv (d : ExtendibleHTableDirectoryPage)
    (h : DirReachable d) : SInv d ∨ FreshShape d := by
  induction h with
  | fresh max_depth => exact Or.inr ⟨rfl, rfl, rfl⟩
  | install d bi npid _ hbi hnone ih =>
    left
    rcases ih with hS | hf
    · exfalso
      unfold ExtendibleHTableDirectoryPage.get_bucket_page_id at hnone
      rw [List.getElem?_eq_none_iff, hS.len_ids] at hnone
      omega
    · exact sinv_install d bi npid hf hbi
  | split_double d d₂ bi npid _ hbi hsome hld hfresh hinc ih =>
    left
    rcases ih with hS | hf
    · exact sinv_split_double d d₂ bi npid hS hbi hld hfresh hinc
    · rw [fresh_no_bucket hf] at hsome
      exact absurd hsome (by simp)
  | split_level d bi ld npid _ hbi hsome hld hne hfresh ih =>
    left
    rcases ih with hS | hf
    · exact sinv_split_level d bi ld npid hS hbi hld hne hfresh
    · rw [fresh_no_bucket hf] at hsome
      exact absurd hsome (by simp)

theorem sinv_count (d : ExtendibleHTableDirectoryPage) (hS : SInv d)
    (i : Nat) (hi : i < d.bucket_page_ids.length) :
    d.bucket_page_ids.count (dirP d i) = 2 ^ (d.global_depth - dirL d i) := by
  have hi' : i < 2 ^ d.global_depth := by rw [← hS.len_ids]; exact hi
  rw [count_eq_countP_range, hS.len_ids]
  have hcg : (List.range (2 ^ d.global_depth)).countP
      (fun j => d.bucket_page_ids.getD j 0 == dirP d i) =
      (List.range (2 ^ d.global_depth)).countP
      (fun j => j % 2 ^ dirL d i == i % 2 ^ dirL d i) := by
    apply List.countP_congr
    intro j hj
    rw [List.mem_range] at hj
    simp only [beq_iff_eq]
    constructor
    · intro h
      exact hS.pid_congr i j hi' hj h
    · intro h
      exact (hS.class_eq i j hi' hj h).1
  rw [hcg, countP_range_mod _ _ _ (hS.ld_le i hi')
    (Nat.mod_lt _ (Nat.pos_pow_of_pos _ (by omega)))]

/-- C3: for every directory state reachable through the insert/split
protocol, every entry's local depth is at most the global depth, and
each bucket page id appears in the directory exactly
`2^(global_depth - local_depth)` times (`dirP d i` / `dirL d i` are
slot `i`'s page id and local depth). -/
theorem directory_depth_invariant_c3 (d : ExtendibleHTableDirectoryPage)
    (h : DirReachable d) :
    (∀ l ∈ d.local_depths, l ≤ d.global_depth) ∧
    (∀ i, i < d.bucket_page_ids.length →
      d.bucket_page_ids.count (dirP d i) =
        2 ^ (d.global_depth - dirL d i)) := by
  rcases dir_reachable_sinv d h with hS | hf
  · constructor
    · intro l hl
      obtain ⟨k, hk, hgk⟩ := List.mem_iff_getElem.mp hl
      have hdk : dirL d k = l := by
        unfold dirL
        rw [List.getD_eq_getElem?_getD, List.getElem?_eq_getElem hk, hgk]
        rfl
      have hk' : k < 2 ^ d.global_depth := by rw [← hS.len_lds]; exact hk
      rw [← hdk]
      exact hS.ld_le k hk'
    · intro i hi
      exact sinv_count d hS i hi
  · obtain ⟨hids, hlds, hgd⟩ := hf
    constructor
    · intro l hl
      rw [hlds] at hl
      simp at hl
      omega
    · intro i hi
      rw [hids] at hi
      simp at hi

/-- Witness for C3 at a concrete reachable directory: fresh directory
of max depth 2, first bucket (page 5) installed at slot 0, then a
doubling split installing page 6 — reaching
`⟨[5, 6], [1, 1], 2, 1⟩`. -/
theorem directory_depth_invariant_c3_witness :
    (∀ l ∈ (⟨[5, 6], [1, 1], 2, 1⟩ :
        ExtendibleHTableDirectoryPage).local_depths,
      l ≤ (⟨[5, 6], [1, 1], 2, 1⟩ :
        ExtendibleHTableDirectoryPage).global_depth) ∧
    (∀ i, i < (⟨[5, 6], [1, 1], 2, 1⟩ :
        ExtendibleHTableDirectoryPage).bucket_page_ids.length →
      (⟨[5, 6], [1, 1], 2, 1⟩ :
        ExtendibleHTableDirectoryPage).bucket_page_ids.count
          (dirP (⟨[5, 6], [1, 1], 2, 1⟩ : ExtendibleHTableDirectoryPage) i) =
        2 ^ ((⟨[5, 6], [1, 1], 2, 1⟩ :
          ExtendibleHTableDirectoryPage).global_depth -
            dirL (⟨[5, 6], [1, 1], 2, 1⟩ : ExtendibleHTableDirectoryPage) i)) :=
  directory_depth_invariant_c3 _
    (DirReachable.split_double
      ((ExtendibleHTableDirectoryPage.new 2).set_bucket_page_id 0 5)
      ⟨[5, 5], [1, 1], 2, 1⟩ 0 6
      (DirReachable.install (ExtendibleHTableDirectoryPage.new 2) 0 5
        (DirReachable.fresh 2) (by decide) rfl)
      (by decide) rfl rfl (by decide) rfl)

/-! ### C1: insert/get round trip

The round-trip argument runs by induction over the fuelled work list of
`insert_many`: a well-formedness invariant (`GoodDir`) relating the
directory in hand to the page store is preserved by every step, every
step keeps the directory written back under the directory's page id,
pages outside the directory's reach are untouched, and the last pending
pair's key routes to a bucket holding its value. -/

section RoundTripC1

variable {K V : Type}

/-- Directory shapes `insert_internal` can observe: the slot array has
the full `2 ^ global_depth` length, or the directory is still in its
just-constructed state (empty slot array at global depth `0`). -/
def DirShape (d : ExtendibleHTableDirectoryPage) : Prop :=
  d.bucket_page_ids.length = 2 ^ d.global_depth ∨
    (d.bucket_page_ids = [] ∧ d.global_depth = 0)

/-- The invariant `insert_many` maintains on its directory argument:
a sound shape, and the header page id, the directory page id and every
bucket page id in the directory are allocated (`≤ next_page_id`),
nonzero and pairwise distinct. -/
structure GoodDir (hp dir_pid : Nat) (st : PageStore K V)
    (dir : ExtendibleHTableDirectoryPage) : Prop where
  shape : DirShape dir
  hp_pos : 0 < hp
  dp_pos : 0 < dir_pid
  hp_le : hp ≤ st.next_page_id
  dp_le : dir_pid ≤ st.next_page_id
  hp_ne : hp ≠ dir_pid
  ids : ∀ p ∈ dir.bucket_page_ids,
    p ≤ st.next_page_id ∧ p ≠ hp ∧ p ≠ dir_pid

/-- A page-store write is read back. -/
theorem store_set_data_self (st : PageStore K V) (pid : Nat)
    (pd : PageData K V) : (st.set_data pid pd).store pid = some pd := by
  simp [PageStore.set_data]

/-- A page-store write leaves other pages alone. -/
theorem store_set_data_ne (st : PageStore K V) {pid q : Nat}
    (pd : PageData K V) (h : q ≠ pid) :
    (st.set_data pid pd).store q = st.store q := by
  simp [PageStore.set_data, h]

/-- The invariant only reads the store's allocation bound, so it
transports along any allocation-monotone store change. -/
theorem gooddir_mono {hp dir_pid : Nat} {st : PageStore K V}
    {dir : ExtendibleHTableDirectoryPage}
    (hG : GoodDir hp dir_pid st dir) (st₂ : PageStore K V)
    (h : st.next_page_id ≤ st₂.next_page_id) :
    GoodDir hp dir_pid st₂ dir :=
  ⟨hG.shape, hG.hp_pos, hG.dp_pos, le_trans hG.hp_le h,
   le_trans hG.dp_le h, hG.hp_ne,
   fun p hpm => ⟨le_trans (hG.ids p hpm).1 h, (hG.ids p hpm).2.1,
     (hG.ids p hpm).2.2⟩⟩

variable [DecidableEq K]

/-- Postcondition of a successful `insert_many` run: the invariant
holds again, page ids only grow, the final directory is stored under
`dir_pid` (provided it was stored initially or some work was pending),
allocated pages outside the directory's bucket set are untouched, and
when the work list ends in `(k, v)` the key `k` routes to a stored
bucket holding `v`. -/
def InsertManyPost (hash : K → Nat) (hp dir_pid : Nat)
    (todo : List (K × V)) (dir dir' : ExtendibleHTableDirectoryPage)
    (st st' : PageStore K V) : Prop :=
  GoodDir hp dir_pid st' dir' ∧
  st.next_page_id ≤ st'.next_page_id ∧
  ((st.store dir_pid = some (PageData.directory dir) ∨ todo ≠ []) →
    st'.store dir_pid = some (PageData.directory dir')) ∧
  (∀ q, q ≤ st.next_page_id → q ≠ dir_pid → q ∉ dir.bucket_page_ids →
    st'.store q = st.store q) ∧
  (∀ l (k : K) (v : V), todo = l ++ [(k, v)] →
    ∃ bpid b,
      dir'.get_bucket_page_id (dir'.hash_to_bucket_index (hash k))
        = some bpid ∧
      st'.store bpid = some (PageData.bucket b) ∧
      ExtendibleHTableBucketPage.get b k = some v)


/-- A bucket id returned by `get_bucket_page_id` is in the slot array. -/
theorem mem_of_get_bucket_page_id {d : ExtendibleHTableDirectoryPage}
    {i bpid : Nat} (h : d.get_bucket_page_id i = some bpid) :
    bpid ∈ d.bucket_page_ids := by
  unfold ExtendibleHTableDirectoryPage.get_bucket_page_id at h
  have hi : i < d.bucket_page_ids.length := by
    by_contra hc
    rw [List.getElem?_eq_none_iff.mpr (by omega)] at h
    cases h
  rw [List.getElem?_eq_getElem hi] at h
  exact Option.some.inj h ▸ List.getElem_mem hi

/-- Inserting into a bucket makes the key readable (`HashMap` insert
followed by lookup). -/
theorem bucket_insert_get (b : ExtendibleHTableBucketPage K V)
    (k : K) (v : V) : (b.insert k v).get k = some v := by
  unfold ExtendibleHTableBucketPage.insert ExtendibleHTableBucketPage.get
  have hnone : (b.data.filter (fun e => decide (e.1 ≠ k))).find?
      (fun e => decide (e.1 = k)) = none := by
    rw [List.find?_eq_none]
    intro x hx
    have hx2 := (List.mem_filter.mp hx).2
    simp only [decide_eq_true_eq] at hx2 ⊢
    exact hx2
  rw [List.find?_append, hnone]
  simp [List.find?]

/-- An empty work list returns the directory and store unchanged. -/
theorem insert_many_nil (hash : K → Nat) (t : ExtendibleHashTable)
    (dir_pid fuel : Nat) (dir : ExtendibleHTableDirectoryPage)
    (st : PageStore K V) :
    ExtendibleHashTable.insert_many hash t dir_pid fuel [] dir st
      = some (dir, st) := by
  cases fuel <;> rfl

/-- The postcondition in the base case. -/
theorem insert_many_post_nil {hash : K → Nat} {t : ExtendibleHashTable}
    {hp dir_pid fuel : Nat} {dir dir' : ExtendibleHTableDirectoryPage}
    {st st' : PageStore K V}
    (hins : ExtendibleHashTable.insert_many hash t dir_pid fuel [] dir st
      = some (dir', st'))
    (hG : GoodDir hp dir_pid st dir) :
    InsertManyPost hash hp dir_pid ([] : List (K × V)) dir dir' st st' := by
  rw [insert_many_nil] at hins
  have hpair := Option.some.inj hins
  obtain ⟨rfl, rfl⟩ : dir' = dir ∧ st' = st :=
    ⟨(congrArg Prod.fst hpair).symm, (congrArg Prod.snd hpair).symm⟩
  refine ⟨hG, Nat.le_refl _, ?_, fun q _ _ _ => rfl, ?_⟩
  · rintro (h | h)
    · exact h
    · exact absurd rfl h
  · intro l k v htodo
    cases l <;> simp at htodo

/-- Relocating the postcondition from the state after a routing step
back to the state before it. -/
theorem insert_many_post_glue {hash : K → Nat} {hp dir_pid : Nat}
    {todo : List (K × V)} {dir dir₀ dir' : ExtendibleHTableDirectoryPage}
    {st st₀ st' : PageStore K V}
    (hpost : InsertManyPost hash hp dir_pid todo dir₀ dir' st₀ st')
    (hnext : st.next_page_id ≤ st₀.next_page_id)
    (hframe : ∀ q, q ≤ st.next_page_id → st₀.store q = st.store q)
    (hmem : ∀ p ∈ dir₀.bucket_page_ids,
      p ∈ dir.bucket_page_ids ∨ st.next_page_id < p)
    (hne : todo ≠ []) :
    InsertManyPost hash hp dir_pid todo dir dir' st st' := by
  obtain ⟨hPG, hPn, hPs, hPf, hPr⟩ := hpost
  refine ⟨hPG, le_trans hnext hPn, fun _ => hPs (Or.inr hne), ?_, hPr⟩
  intro q hq hqdp hqids
  have hq₀ : q ∉ dir₀.bucket_page_ids := by
    intro hmem₀
    rcases hmem q hmem₀ with h | h
    · exact hqids h
    · omega
  rw [hPf q (le_trans hq hnext) hqdp hq₀, hframe q hq]

end RoundTripC1

/-- Setting a bucket slot keeps the global depth. -/
theorem set_bucket_page_id_gd (d : ExtendibleHTableDirectoryPage)
    (i x : Nat) :
    (d.set_bucket_page_id i x).global_depth = d.global_depth := rfl

/-- With a nonempty slot array, `set_bucket_page_id` is a plain
`List.set` (the push quirk does not fire). -/
theorem set_bucket_page_id_ids {d : ExtendibleHTableDirectoryPage}
    (hne : d.bucket_page_ids ≠ []) (i x : Nat) :
    (d.set_bucket_page_id i x).bucket_page_ids
      = d.bucket_page_ids.set i x := by
  unfold ExtendibleHTableDirectoryPage.set_bucket_page_id
  simp [List.isEmpty_eq_false.mpr hne]

/-- Membership after a slot write, on a nonempty array. -/
theorem mem_set_bucket_page_id {d : ExtendibleHTableDirectoryPage}
    {p i x : Nat} (hne : d.bucket_page_ids ≠ [])
    (h : p ∈ (d.set_bucket_page_id i x).bucket_page_ids) :
    p ∈ d.bucket_page_ids ∨ p = x := by
  rw [set_bucket_page_id_ids hne] at h
  exact List.mem_or_eq_of_mem_set h

/-- Incrementing a local depth touches neither the slot array nor the
global depth. -/
theorem increment_local_depth_ids (d : ExtendibleHTableDirectoryPage)
    (i : Nat) :
    (d.increment_local_depth i).bucket_page_ids = d.bucket_page_ids ∧
    (d.increment_local_depth i).global_depth = d.global_depth :=
  ⟨rfl, rfl⟩

/-- Characterisation of a successful `increment_global_depth` on the
fields the round trip uses. -/
theorem increment_global_depth_some {d dG : ExtendibleHTableDirectoryPage}
    (h : d.increment_global_depth = some dG) :
    dG.bucket_page_ids = d.bucket_page_ids ++ d.bucket_page_ids ∧
    dG.global_depth = d.global_depth + 1 := by
  rw [ExtendibleHTableDirectoryPage.increment_global_depth_eq] at h
  split at h
  · exact Option.noConfusion h
  · split at h
    · cases h
      exact ⟨rfl, rfl⟩
    · exact Option.noConfusion h

/-- The split loop keeps the global depth. -/
theorem split_slots_gd (bi nld npid : Nat) :
    ∀ (m : Nat) (d : ExtendibleHTableDirectoryPage),
      (ExtendibleHashTable.split_slots bi nld npid m d).global_depth
        = d.global_depth := by
  intro m
  induction m with
  | zero => intro d; rfl
  | succ m ih =>
    intro d
    rw [ExtendibleHashTable.split_slots]
    by_cases hc : m % 2 ^ nld = bi % 2 ^ nld
    · rw [if_pos hc, set_bucket_page_id_gd]
      exact ih d
    · rw [if_neg hc]
      exact ih d

/-- The split loop keeps the slot-array length (each write is a plain
`List.set` because the array stays nonempty). -/
theorem split_slots_len (bi nld npid : Nat) :
    ∀ (m : Nat) (d : ExtendibleHTableDirectoryPage),
      0 < d.bucket_page_ids.length →
      (ExtendibleHashTable.split_slots bi nld npid m d).bucket_page_ids.length
        = d.bucket_page_ids.length := by
  intro m
  induction m with
  | zero => intro d _; rfl
  | succ m ih =>
    intro d hd
    rw [ExtendibleHashTable.split_slots]
    by_cases hc : m % 2 ^ nld = bi % 2 ^ nld
    · rw [if_pos hc]
      have hlen := ih d hd
      set dm := ExtendibleHashTable.split_slots bi nld npid m d with hdm
      have hne : ((dm.increment_local_depth m).increment_local_depth
          ((dm.increment_local_depth m).get_split_image_index
            m)).bucket_page_ids ≠ [] := by
        show dm.bucket_page_ids ≠ []
        intro hnil
        rw [hnil] at hlen
        simp at hlen
        omega
      rw [set_bucket_page_id_ids hne, List.length_set]
      exact hlen
    · rw [if_neg hc]
      exact ih d hd

/-- Every slot after the split loop is an old slot or the new page. -/
theorem split_slots_mem (bi nld npid : Nat) :
    ∀ (m : Nat) (d : ExtendibleHTableDirectoryPage),
      0 < d.bucket_page_ids.length →
      ∀ p ∈ (ExtendibleHashTable.split_slots bi nld npid m
        d).bucket_page_ids, p ∈ d.bucket_page_ids ∨ p = npid := by
  intro m
  induction m with
  | zero => intro d _ p hp; exact Or.inl hp
  | succ m ih =>
    intro d hd p hp
    rw [ExtendibleHashTable.split_slots] at hp
    by_cases hc : m % 2 ^ nld = bi % 2 ^ nld
    · rw [if_pos hc] at hp
      have hlen := split_slots_len bi nld npid m d hd
      set dm := ExtendibleHashTable.split_slots bi nld npid m d with hdm
      have hne : ((dm.increment_local_depth m).increment_local_depth
          ((dm.increment_local_depth m).get_split_image_index
            m)).bucket_page_ids ≠ [] := by
        show dm.bucket_page_ids ≠ []
        intro hnil
        rw [hnil] at hlen
        simp at hlen
        omega
      rcases mem_set_bucket_page_id hne hp with h | h
      · exact ih d hd p h
      · exact Or.inr h
    · rw [if_neg hc] at hp
      exact ih d hd p hp

section RoundTripC1Step

variable {K V : Type} [DecidableEq K]

/-- Postcondition of one `insert_many` step that lands in a non-full
bucket: insert the pair, write the bucket and the directory back, and
continue with the remaining work list. -/
theorem insert_many_nonfull {hash : K → Nat} {t : ExtendibleHashTable}
    {hp dir_pid fuel : Nat}
    (IH : ∀ (todo : List (K × V)) (dir : ExtendibleHTableDirectoryPage)
      (st : PageStore K V) (dir' : ExtendibleHTableDirectoryPage)
      (st' : PageStore K V),
      ExtendibleHashTable.insert_many hash t dir_pid fuel todo dir st
        = some (dir', st') →
      GoodDir hp dir_pid st dir →
      InsertManyPost hash hp dir_pid todo dir dir' st st')
    (k₀ : K) (v₀ : V) (rest : List (K × V)) (bi : Nat)
    (b : ExtendibleHTableBucketPage K V) (bpid : Nat)
    (dir₀ dir' : ExtendibleHTableDirectoryPage) (st₀ st' : PageStore K V)
    (hG : GoodDir hp dir_pid st₀ dir₀)
    (hroute : dir₀.get_bucket_page_id bi = some bpid)
    (hbi_eq : dir₀.hash_to_bucket_index (hash k₀) = bi)
    (hins : ExtendibleHashTable.insert_many hash t dir_pid fuel rest dir₀
      ((st₀.set_data bpid (PageData.bucket (b.insert k₀ v₀))).set_data
        dir_pid (PageData.directory dir₀)) = some (dir', st')) :
    InsertManyPost hash hp dir_pid ((k₀, v₀) :: rest) dir₀ dir' st₀ st' := by
  have hbmem : bpid ∈ dir₀.bucket_page_ids := mem_of_get_bucket_page_id hroute
  obtain ⟨hble, hbhp, hbdp⟩ := hG.ids bpid hbmem
  have hGB : GoodDir hp dir_pid
      ((st₀.set_data bpid (PageData.bucket (b.insert k₀ v₀))).set_data
        dir_pid (PageData.directory dir₀)) dir₀ :=
    gooddir_mono hG _ (Nat.le_refl _)
  have hpost := IH rest dir₀ _ dir' st' hins hGB
  obtain ⟨hPG, hPn, hPs, hPf, hPr⟩ := hpost
  refine ⟨hPG, hPn, ?_, ?_, ?_⟩
  · intro _
    exact hPs (Or.inl (store_set_data_self _ _ _))
  · intro q hq hqdp hqids
    have hqb : q ≠ bpid := fun h => hqids (h ▸ hbmem)
    rw [hPf q hq hqdp hqids, store_set_data_ne _ _ hqdp,
      store_set_data_ne _ _ hqb]
  · intro l k v htodo
    rcases l with _ | ⟨x, l₂⟩
    · simp only [List.nil_append] at htodo
      injection htodo with h1 h2
      subst h2
      injection h1 with hk hv
      subst hk
      subst hv
      rw [insert_many_nil] at hins
      have hpair := Option.some.inj hins
      have h3 : dir' = dir₀ := (congrArg Prod.fst hpair).symm
      have h4 : st' = (st₀.set_data bpid (PageData.bucket
          (b.insert k₀ v₀))).set_data dir_pid (PageData.directory dir₀) :=
        (congrArg Prod.snd hpair).symm
      subst h3
      subst h4
      refine ⟨bpid, b.insert k₀ v₀, ?_, ?_, bucket_insert_get b k₀ v₀⟩
      · rw [hbi_eq]
        exact hroute
      · rw [store_set_data_ne _ _ hbdp, store_set_data_self]
    · simp only [List.cons_append] at htodo
      injection htodo with h1 h2
      subst h2
      exact hPr l₂ k v rfl

/-- Postcondition of one `insert_many` step that splits a full bucket:
allocate the new bucket page, rewrite the directory (by either split
form, abstracted by `hshape`/`hmem`), drain the old bucket, write
everything back and recurse on the drained entries, the incoming pair
and the remaining work list. -/
theorem insert_many_recurse {hash : K → Nat} {t : ExtendibleHashTable}
    {hp dir_pid fuel : Nat}
    (IH : ∀ (todo : List (K × V)) (dir : ExtendibleHTableDirectoryPage)
      (st : PageStore K V) (dir' : ExtendibleHTableDirectoryPage)
      (st' : PageStore K V),
      ExtendibleHashTable.insert_many hash t dir_pid fuel todo dir st
        = some (dir', st') →
      GoodDir hp dir_pid st dir →
      InsertManyPost hash hp dir_pid todo dir dir' st st')
    (k₀ : K) (v₀ : V) (rest : List (K × V))
    (b : ExtendibleHTableBucketPage K V) (bpid : Nat)
    (dir₀ dir₁ dir' : ExtendibleHTableDirectoryPage)
    (st₀ st' : PageStore K V)
    (hG : GoodDir hp dir_pid st₀ dir₀)
    (hbmem : bpid ∈ dir₀.bucket_page_ids)
    (hshape : DirShape dir₁)
    (hmem : ∀ p ∈ dir₁.bucket_page_ids,
      p ∈ dir₀.bucket_page_ids ∨ p = st₀.next_page_id + 1)
    (hins : ExtendibleHashTable.insert_many hash t dir_pid fuel
      (b.get_entries.1 ++ [(k₀, v₀)] ++ rest) dir₁
      (((st₀.new_page.1.set_data st₀.new_page.2
          (PageData.bucket (ExtendibleHTableBucketPage.new
            t.bucket_max_size))).set_data dir_pid
          (PageData.directory dir₁)).set_data bpid
          (PageData.bucket b.get_entries.2)) = some (dir', st')) :
    InsertManyPost hash hp dir_pid ((k₀, v₀) :: rest) dir₀ dir' st₀ st' := by
  obtain ⟨hble, hbhp, hbdp⟩ := hG.ids bpid hbmem
  have hnp2 : st₀.new_page.2 = st₀.next_page_id + 1 := rfl
  set stD : PageStore K V :=
    ((st₀.new_page.1.set_data st₀.new_page.2
        (PageData.bucket (ExtendibleHTableBucketPage.new
          t.bucket_max_size))).set_data dir_pid
        (PageData.directory dir₁)).set_data bpid
        (PageData.bucket b.get_entries.2) with hstD
  have hDnext : stD.next_page_id = st₀.next_page_id + 1 := rfl
  have hGD : GoodDir hp dir_pid stD dir₁ := by
    refine ⟨hshape, hG.hp_pos, hG.dp_pos, ?_, ?_, hG.hp_ne, ?_⟩
    · rw [hDnext]
      exact le_trans hG.hp_le (Nat.le_succ _)
    · rw [hDnext]
      exact le_trans hG.dp_le (Nat.le_succ _)
    · intro p hpm
      rcases hmem p hpm with h | h
      · obtain ⟨h1, h2, h3⟩ := hG.ids p h
        exact ⟨by rw [hDnext]; omega, h2, h3⟩
      · subst h
        have hh := hG.hp_le
        have hd := hG.dp_le
        exact ⟨by rw [hDnext], by omega, by omega⟩
  have hpost := IH _ _ _ _ _ hins hGD
  obtain ⟨hPG, hPn, hPs, hPf, hPr⟩ := hpost
  refine ⟨hPG, ?_, ?_, ?_, ?_⟩
  · rw [hDnext] at hPn
    omega
  · intro _
    refine hPs (Or.inr ?_)
    intro hcon
    simp at hcon
  · intro q hq hqdp hqids
    have hqb : q ≠ bpid := fun h => hqids (h ▸ hbmem)
    have hqnp : q ≠ st₀.next_page_id + 1 := by omega
    have hqnp2 : q ≠ st₀.new_page.2 := by
      rw [hnp2]
      exact hqnp
    have hq₁ : q ∉ dir₁.bucket_page_ids := by
      intro hmem₁
      rcases hmem q hmem₁ with h | h
      · exact hqids h
      · omega
    rw [hPf q (by rw [hDnext]; omega) hqdp hq₁, hstD,
      store_set_data_ne _ _ hqb, store_set_data_ne _ _ hqdp,
      store_set_data_ne _ _ hqnp2]
    show (if q = st₀.next_page_id + 1 then none else st₀.store q)
      = st₀.store q
    rw [if_neg hqnp]
  · intro l k v htodo
    rcases l with _ | ⟨x, l₂⟩
    · simp only [List.nil_append] at htodo
      injection htodo with h1 h2
      subst h2
      injection h1 with hk hv
      subst hk
      subst hv
      exact hPr b.get_entries.1 k₀ v₀ (by simp)
    · simp only [List.cons_append] at htodo
      injection htodo with h1 h2
      subst h2
      exact hPr (b.get_entries.1 ++ [(k₀, v₀)] ++ l₂) k v (by simp)

end RoundTripC1Step

section RoundTripC1Main

variable {K V : Type} [DecidableEq K]

/-- A directory with a routed bucket present has the full array length. -/
theorem shape_len_of_some {dir : ExtendibleHTableDirectoryPage}
    {bi bpid : Nat} (hs : DirShape dir)
    (hgb : dir.get_bucket_page_id bi = some bpid) :
    dir.bucket_page_ids.length = 2 ^ dir.global_depth := by
  rcases hs with h | ⟨hnil, h0⟩
  · exact h
  · rw [ExtendibleHTableDirectoryPage.get_bucket_page_id, hnil] at hgb
    simp at hgb

/-- A directory whose routed slot is missing is still fresh: the slot
array is empty and the global depth is `0` (a full-length array always
has the routed slot). -/
theorem shape_nil_of_none {dir : ExtendibleHTableDirectoryPage} {hsh : Nat}
    (hs : DirShape dir)
    (hgb : dir.get_bucket_page_id (dir.hash_to_bucket_index hsh) = none) :
    dir.bucket_page_ids = [] ∧ dir.global_depth = 0 := by
  rcases hs with h | h
  · exfalso
    rw [ExtendibleHTableDirectoryPage.get_bucket_page_id,
      List.getElem?_eq_none_iff, h] at hgb
    have hlt : dir.hash_to_bucket_index hsh < 2 ^ dir.global_depth :=
      Nat.mod_lt _ (Nat.pos_pow_of_pos _ (by omega))
    omega
  · exact h

/-- Shape and membership facts for the directory produced by the
doubling split. -/
theorem split_double_facts {dir₀ dirG : ExtendibleHTableDirectoryPage}
    {bi : Nat} (npid : Nat)
    (hinc : (dir₀.increment_local_depth bi).increment_global_depth
      = some dirG)
    (hlen : dir₀.bucket_page_ids.length = 2 ^ dir₀.global_depth) :
    DirShape (dirG.set_bucket_page_id (dirG.get_split_image_index bi)
      npid) ∧
    ∀ p ∈ (dirG.set_bucket_page_id (dirG.get_split_image_index bi)
      npid).bucket_page_ids, p ∈ dir₀.bucket_page_ids ∨ p = npid := by
  have hGids : dirG.bucket_page_ids
      = dir₀.bucket_page_ids ++ dir₀.bucket_page_ids :=
    (increment_global_depth_some hinc).1
  have hGgd : dirG.global_depth = dir₀.global_depth + 1 :=
    (increment_global_depth_some hinc).2
  have hpos : 0 < 2 ^ dir₀.global_depth := Nat.pos_pow_of_pos _ (by omega)
  have hne₀ : dir₀.bucket_page_ids ≠ [] := by
    intro hc
    rw [hc] at hlen
    simp at hlen
    omega
  have hGne : dirG.bucket_page_ids ≠ [] := by
    rw [hGids]
    intro hc
    exact hne₀ (List.append_eq_nil.mp hc).1
  constructor
  · left
    rw [set_bucket_page_id_ids hGne, List.length_set, hGids,
      List.length_append, hlen, set_bucket_page_id_gd, hGgd, Nat.pow_succ]
    omega
  · intro p hpm
    rcases mem_set_bucket_page_id hGne hpm with h | h
    · rw [hGids] at h
      rcases List.mem_append.mp h with h | h
      · exact Or.inl h
      · exact Or.inl h
    · exact Or.inr h

/-- Shape and membership facts for the directory produced by the
non-doubling split loop. -/
theorem split_level_facts (dir₀ : ExtendibleHTableDirectoryPage)
    (bi nld npid : Nat)
    (hlen : dir₀.bucket_page_ids.length = 2 ^ dir₀.global_depth) :
    DirShape (ExtendibleHashTable.split_slots bi nld npid
      dir₀.get_size dir₀) ∧
    ∀ p ∈ (ExtendibleHashTable.split_slots bi nld npid dir₀.get_size
      dir₀).bucket_page_ids, p ∈ dir₀.bucket_page_ids ∨ p = npid := by
  have hpos : 0 < 2 ^ dir₀.global_depth := Nat.pos_pow_of_pos _ (by omega)
  have hp0 : 0 < dir₀.bucket_page_ids.length := by omega
  constructor
  · left
    rw [split_slots_len _ _ _ _ _ hp0, split_slots_gd, hlen]
  · exact split_slots_mem _ _ _ _ _ hp0

/-- The work-list induction: a successful `insert_many` run from a
well-formed directory satisfies the full postcondition. -/
theorem insert_many_spec (hash : K → Nat) (t : ExtendibleHashTable)
    (hp dir_pid : Nat) :
    ∀ (fuel : Nat) (todo : List (K × V))
      (dir : ExtendibleHTableDirectoryPage) (st : PageStore K V)
      (dir' : ExtendibleHTableDirectoryPage) (st' : PageStore K V),
      ExtendibleHashTable.insert_many hash t dir_pid fuel todo dir st
        = some (dir', st') →
      GoodDir hp dir_pid st dir →
      InsertManyPost hash hp dir_pid todo dir dir' st st' := by
  intro fuel
  induction fuel with
  | zero =>
    intro todo dir st dir' st' hins hG
    rcases todo with _ | ⟨⟨k₀, v₀⟩, rest⟩
    · exact insert_many_post_nil hins hG
    · exact Option.noConfusion hins
  | succ fuel ih =>
    intro todo dir st dir' st' hins hG
    rcases todo with _ | ⟨⟨k₀, v₀⟩, rest⟩
    · exact insert_many_post_nil hins hG
    · simp only [ExtendibleHashTable.insert_many] at hins
      cases hgb : dir.get_bucket_page_id
          (dir.hash_to_bucket_index (hash k₀)) with
      | some bpid =>
        simp only [hgb] at hins
        cases hsb : st.store bpid with
        | none =>
          simp only [hsb] at hins
          exact Option.noConfusion hins
        | some pd =>
          cases pd with
          | header hh =>
            simp only [hsb] at hins
            exact Option.noConfusion hins
          | directory dd =>
            simp only [hsb] at hins
            exact Option.noConfusion hins
          | bucket b =>
            simp only [hsb] at hins
            have hbmem : bpid ∈ dir.bucket_page_ids :=
              mem_of_get_bucket_page_id hgb
            have hlen : dir.bucket_page_ids.length
                = 2 ^ dir.global_depth := shape_len_of_some hG.shape hgb
            by_cases hfull : b.is_full = false
            · rw [if_pos hfull] at hins
              exact insert_many_nonfull ih k₀ v₀ rest _ b bpid dir dir'
                st st' hG hgb rfl hins
            · rw [if_neg hfull] at hins
              cases hld : dir.get_local_depth
                  (dir.hash_to_bucket_index (hash k₀)) with
              | none =>
                simp only [hld] at hins
                exact Option.noConfusion hins
              | some ld =>
                simp only [hld] at hins
                by_cases hdd : ld = dir.get_global_depth
                · rw [if_pos hdd] at hins
                  cases hinc : (dir.increment_local_depth
                      (dir.hash_to_bucket_index
                        (hash k₀))).increment_global_depth with
                  | none =>
                    simp only [hinc] at hins
                    exact Option.noConfusion hins
                  | some dirG =>
                    simp only [hinc] at hins
                    obtain ⟨hshape, hmem⟩ :=
                      split_double_facts st.new_page.2 hinc hlen
                    exact insert_many_recurse ih k₀ v₀ rest b bpid dir _
                      dir' st st' hG hbmem hshape
                      (fun p hpm => (hmem p hpm).imp id
                        (fun h => h.trans rfl)) hins
                · rw [if_neg hdd] at hins
                  obtain ⟨hshape, hmem⟩ := split_level_facts dir
                    (dir.hash_to_bucket_index (hash k₀)) (ld + 1)
                    st.new_page.2 hlen
                  exact insert_many_recurse ih k₀ v₀ rest b bpid dir _
                    dir' st st' hG hbmem hshape
                    (fun p hpm => (hmem p hpm).imp id
                      (fun h => h.trans rfl)) hins
      | none =>
        simp only [hgb] at hins
        obtain ⟨hnil, h0⟩ := shape_nil_of_none hG.shape hgb
        have hbi0 : dir.hash_to_bucket_index (hash k₀) = 0 := by
          rw [ExtendibleHTableDirectoryPage.hash_to_bucket_index, h0,
            pow_zero, Nat.mod_one]
        rw [hbi0] at hins
        have hids₀ : (dir.set_bucket_page_id 0
            st.new_page.2).bucket_page_ids = [st.new_page.2] := by
          simp [ExtendibleHTableDirectoryPage.set_bucket_page_id, hnil]
        have hgd₀ : (dir.set_bucket_page_id 0
            st.new_page.2).global_depth = 0 := by
          rw [set_bucket_page_id_gd, h0]
        have hroute₀ : (dir.set_bucket_page_id 0
            st.new_page.2).get_bucket_page_id 0 = some st.new_page.2 := by
          rw [ExtendibleHTableDirectoryPage.get_bucket_page_id, hids₀]
          rfl
        have hbi₀eq : (dir.set_bucket_page_id 0
            st.new_page.2).hash_to_bucket_index (hash k₀) = 0 := by
          rw [ExtendibleHTableDirectoryPage.hash_to_bucket_index, hgd₀,
            pow_zero, Nat.mod_one]
        have hnewle : st.next_page_id ≤ st.new_page.1.next_page_id :=
          Nat.le_succ _
        have hG₀ : GoodDir hp dir_pid st.new_page.1
            (dir.set_bucket_page_id 0 st.new_page.2) := by
          refine ⟨Or.inl (by rw [hids₀, hgd₀]; rfl), hG.hp_pos, hG.dp_pos,
            le_trans hG.hp_le hnewle, le_trans hG.dp_le hnewle,
            hG.hp_ne, ?_⟩
          intro p hpm
          rw [hids₀, List.mem_singleton] at hpm
          subst hpm
          have h1 := hG.hp_le
          have h2 := hG.dp_le
          refine ⟨Nat.le_refl _, ?_, ?_⟩
          · show st.next_page_id + 1 ≠ hp
            omega
          · show st.next_page_id + 1 ≠ dir_pid
            omega
        have hframe : ∀ q, q ≤ st.next_page_id →
            st.new_page.1.store q = st.store q := by
          intro q hq
          show (if q = st.next_page_id + 1 then none else st.store q)
            = st.store q
          rw [if_neg (by omega)]
        have hmemg : ∀ p ∈ (dir.set_bucket_page_id 0
            st.new_page.2).bucket_page_ids,
            p ∈ dir.bucket_page_ids ∨ st.next_page_id < p := by
          intro p hpm
          rw [hids₀, List.mem_singleton] at hpm
          subst hpm
          right
          show st.next_page_id < st.next_page_id + 1
          omega
        by_cases hfull : (ExtendibleHTableBucketPage.new t.bucket_max_size
            : ExtendibleHTableBucketPage K V).is_full = false
        · rw [if_pos hfull] at hins
          have hpost := insert_many_nonfull ih k₀ v₀ rest 0
            (ExtendibleHTableBucketPage.new t.bucket_max_size)
            st.new_page.2 (dir.set_bucket_page_id 0 st.new_page.2) dir'
            st.new_page.1 st' hG₀ hroute₀ hbi₀eq hins
          exact insert_many_post_glue hpost hnewle hframe hmemg (by simp)
        · rw [if_neg hfull] at hins
          cases hld : (dir.set_bucket_page_id 0
              st.new_page.2).get_local_depth 0 with
          | none =>
            simp only [hld] at hins
            exact Option.noConfusion hins
          | some ld =>
            simp only [hld] at hins
            have hlen₀ : (dir.set_bucket_page_id 0
                st.new_page.2).bucket_page_ids.length
                = 2 ^ (dir.set_bucket_page_id 0
                  st.new_page.2).global_depth := by
              rw [hids₀, hgd₀]
              rfl
            have hbmem₀ : st.new_page.2 ∈ (dir.set_bucket_page_id 0
                st.new_page.2).bucket_page_ids := by
              rw [hids₀]
              exact List.mem_singleton.mpr rfl
            by_cases hdd : ld = (dir.set_bucket_page_id 0
                st.new_page.2).get_global_depth
            · rw [if_pos hdd] at hins
              cases hinc : ((dir.set_bucket_page_id 0
                  st.new_page.2).increment_local_depth
                  0).increment_global_depth with
              | none =>
                simp only [hinc] at hins
                exact Option.noConfusion hins
              | some dirG =>
                simp only [hinc] at hins
                obtain ⟨hshape, hmem⟩ :=
                  split_double_facts st.new_page.1.new_page.2 hinc hlen₀
                have hpost := insert_many_recurse ih k₀ v₀ rest
                  (ExtendibleHTableBucketPage.new t.bucket_max_size)
                  st.new_page.2 (dir.set_bucket_page_id 0 st.new_page.2)
                  _ dir' st.new_page.1 st' hG₀ hbmem₀ hshape
                  (fun p hpm => (hmem p hpm).imp id
                    (fun h => h.trans rfl)) hins
                exact insert_many_post_glue hpost hnewle hframe hmemg
                  (by simp)
            · rw [if_neg hdd] at hins
              obtain ⟨hshape, hmem⟩ := split_level_facts
                (dir.set_bucket_page_id 0 st.new_page.2) 0 (ld + 1)
                st.new_page.1.new_page.2 hlen₀
              have hpost := insert_many_recurse ih k₀ v₀ rest
                (ExtendibleHTableBucketPage.new t.bucket_max_size)
                st.new_page.2 (dir.set_bucket_page_id 0 st.new_page.2)
                _ dir' st.new_page.1 st' hG₀ hbmem₀ hshape
                (fun p hpm => (hmem p hpm).imp id
                  (fun h => h.trans rfl)) hins
              exact insert_many_post_glue hpost hnewle hframe hmemg
                (by simp)

end RoundTripC1Main

section RoundTripC1Top

variable {K V : Type} [DecidableEq K]

/-- Well-formedness of a table against its page store — the state
`ExtendibleHashTable::new` establishes and the narrowest bookkeeping
`insert` relies on: the header page id is allocated and nonzero and
holds a header whose slot array has its full `2 ^ max_depth` length;
every installed directory page id is allocated, nonzero and distinct
from the header's, and holds a directory of sound shape whose bucket
page ids are allocated and distinct from the header and directory
pages. -/
def wf_table (t : ExtendibleHashTable) (st : PageStore K V) : Bool :=
  decide (0 < t.header_page_id) &&
  decide (t.header_page_id ≤ st.next_page_id) &&
  (match st.store t.header_page_id with
   | some (PageData.header header) =>
     decide (header.directory_page_ids.length = 2 ^ header.max_depth) &&
     header.directory_page_ids.all (fun slot =>
       match slot with
       | none => true
       | some dp =>
         decide (0 < dp) && decide (dp ≤ st.next_page_id) &&
         decide (dp ≠ t.header_page_id) &&
         (match st.store dp with
          | some (PageData.directory d) =>
            (decide (d.bucket_page_ids.length = 2 ^ d.global_depth) ||
             (decide (d.bucket_page_ids = ([] : List Nat)) &&
              decide (d.global_depth = 0))) &&
            d.bucket_page_ids.all (fun p =>
              decide (p ≤ st.next_page_id) &&
              decide (p ≠ t.header_page_id) && decide (p ≠ dp))
          | _ => false))
   | _ => false)

end RoundTripC1Top

/-- Lookup of a header slot read back through `getD` is a member. -/
theorem getD_none_mem {l : List (Option Nat)} {i dp : Nat}
    (h : l.getD i none = some dp) : some dp ∈ l := by
  have hlt : i < l.length := by
    by_contra hc
    rw [List.getD_eq_getElem?_getD,
      List.getElem?_eq_none_iff.mpr (by omega)] at h
    cases h
  rw [List.getD_eq_getElem?_getD, List.getElem?_eq_getElem hlt] at h
  simp only [Option.getD_some] at h
  exact h ▸ List.getElem_mem hlt

/-- C1: on a well-formed table state, after `ExtendibleHashTable::insert(k, v)`
succeeds, `ExtendibleHashTable::get(k)` returns `v` — including runs in
which the insert triggered one or more bucket splits, with or without
directory doubling.  (No remove can intervene: the source's `remove` is
commented out.) -/
theorem insert_get_roundtrip_c1 {K V : Type} [DecidableEq K]
    (hash : K → Nat) (t : ExtendibleHashTable) (st st' : PageStore K V)
    (fuel : Nat) (k : K) (v : V)
    (hwf : wf_table t st = true)
    (hins : ExtendibleHashTable.insert hash t fuel k v st = some st') :
    ExtendibleHashTable.get hash t st' k = some (some v) := by
  unfold wf_table at hwf
  simp only [ExtendibleHashTable.insert] at hins
  cases hsh : st.store t.header_page_id with
  | none =>
    rw [hsh] at hwf
    simp at hwf
  | some pd =>
    cases pd with
    | directory d =>
      rw [hsh] at hwf
      simp at hwf
    | bucket b =>
      rw [hsh] at hwf
      simp at hwf
    | header header =>
      rw [hsh] at hwf
      simp only [hsh] at hins
      simp only [Bool.and_eq_true, decide_eq_true_eq,
        List.all_eq_true] at hwf
      obtain ⟨⟨hhp_pos, hhp_le⟩, hhlen, hall⟩ := hwf
      cases hdi : header.get_directory_page_id
          (header.hash_to_directory_index (hash k)) with
      | some dp =>
        simp only [hdi] at hins
        cases hsd : st.store dp with
        | none =>
          simp only [hsd] at hins
          exact Option.noConfusion hins
        | some pd2 =>
          cases pd2 with
          | header h2 =>
            simp only [hsd] at hins
            exact Option.noConfusion hins
          | bucket b2 =>
            simp only [hsd] at hins
            exact Option.noConfusion hins
          | directory dir =>
            simp only [hsd] at hins
            obtain ⟨dir', st'', hrun, rfl⟩ : ∃ dir' st'',
                ExtendibleHashTable.insert_many hash t dp fuel [(k, v)]
                  dir st = some (dir', st'') ∧ st' = st'' := by
              cases hrun : ExtendibleHashTable.insert_many hash t dp
                  fuel [(k, v)] dir st with
              | none =>
                rw [hrun] at hins
                exact Option.noConfusion hins
              | some r =>
                obtain ⟨d1, s1⟩ := r
                rw [hrun] at hins
                exact ⟨d1, s1, rfl, (Option.some.inj hins).symm⟩
            have hdp_mem : some dp ∈ header.directory_page_ids :=
              getD_none_mem hdi
            have hslot := hall _ hdp_mem
            simp only [Bool.and_eq_true, decide_eq_true_eq] at hslot
            rw [hsd] at hslot
            simp only [Bool.and_eq_true, Bool.or_eq_true,
              decide_eq_true_eq, List.all_eq_true] at hslot
            obtain ⟨⟨⟨hdp_pos, hdp_le⟩, hdp_ne⟩, hshape_b, hids_b⟩ :=
              hslot
            have hG : GoodDir t.header_page_id dp st dir := by
              refine ⟨hshape_b, hhp_pos, hdp_pos, hhp_le, hdp_le,
                fun hc => hdp_ne hc.symm, ?_⟩
              intro p hpm
              obtain ⟨⟨h1, h2⟩, h3⟩ := hids_b p hpm
              exact ⟨h1, h2, h3⟩
            obtain ⟨hPG, hPn, hPs, hPf, hPr⟩ := insert_many_spec hash t
              t.header_page_id dp fuel [(k, v)] dir st dir' st' hrun hG
            have hhp_nin : t.header_page_id ∉ dir.bucket_page_ids := by
              intro hc
              exact (hids_b _ hc).1.2 rfl
            have hsh' : st'.store t.header_page_id
                = some (PageData.header header) := by
              rw [hPf t.header_page_id hhp_le
                (fun hc => hdp_ne hc.symm) hhp_nin, hsh]
            have hsd' : st'.store dp
                = some (PageData.directory dir') := hPs (Or.inl hsd)
            obtain ⟨bpid, bkt, hbr, hbs, hbg⟩ := hPr [] k v rfl
            simp only [ExtendibleHashTable.get, hsh', hdi, hsd', hbr,
              hbs, hbg]
      | none =>
        simp only [hdi] at hins
        obtain ⟨dir', st'', hrun, rfl⟩ : ∃ dir' st'',
            ExtendibleHashTable.insert_many hash t st.new_page.2 fuel
              [(k, v)] (ExtendibleHTableDirectoryPage.new
                t.directory_max_depth)
              (st.new_page.1.set_data t.header_page_id
                (PageData.header (header.set_directory_page_id
                  (header.hash_to_directory_index (hash k))
                  st.new_page.2))) = some (dir', st'') ∧ st' = st'' := by
          cases hrun : ExtendibleHashTable.insert_many hash t
              st.new_page.2 fuel [(k, v)]
              (ExtendibleHTableDirectoryPage.new t.directory_max_depth)
              (st.new_page.1.set_data t.header_page_id
                (PageData.header (header.set_directory_page_id
                  (header.hash_to_directory_index (hash k))
                  st.new_page.2))) with
          | none =>
            rw [hrun] at hins
            exact Option.noConfusion hins
          | some r =>
            obtain ⟨d1, s1⟩ := r
            rw [hrun] at hins
            exact ⟨d1, s1, rfl, (Option.some.inj hins).symm⟩
        have hnp2 : st.new_page.2 = st.next_page_id + 1 := rfl
        have hG : GoodDir t.header_page_id st.new_page.2
            (st.new_page.1.set_data t.header_page_id
              (PageData.header (header.set_directory_page_id
                (header.hash_to_directory_index (hash k))
                st.new_page.2)))
            (ExtendibleHTableDirectoryPage.new t.directory_max_depth) := by
          refine ⟨Or.inr ⟨rfl, rfl⟩, hhp_pos, ?_, ?_, ?_, ?_, ?_⟩
          · rw [hnp2]
            omega
          · show t.header_page_id ≤ st.next_page_id + 1
            omega
          · show st.new_page.2 ≤ st.next_page_id + 1
            rw [hnp2]
          · rw [hnp2]
            omega
          · intro p hpm
            simp [ExtendibleHTableDirectoryPage.new] at hpm
        obtain ⟨hPG, hPn, hPs, hPf, hPr⟩ := insert_many_spec hash t
          t.header_page_id st.new_page.2 fuel [(k, v)] _ _ dir' st'
          hrun hG
        have hsh' : st'.store t.header_page_id
            = some (PageData.header (header.set_directory_page_id
              (header.hash_to_directory_index (hash k))
              st.new_page.2)) := by
          rw [hPf t.header_page_id
            (by show t.header_page_id ≤ st.next_page_id + 1; omega)
            (by rw [hnp2]; omega)
            (by simp [ExtendibleHTableDirectoryPage.new])]
          exact store_set_data_self _ _ _
        have hdi' : (header.set_directory_page_id
            (header.hash_to_directory_index (hash k))
            st.new_page.2).get_directory_page_id
            ((header.set_directory_page_id
              (header.hash_to_directory_index (hash k))
              st.new_page.2).hash_to_directory_index (hash k))
            = some st.new_page.2 := by
          show (header.directory_page_ids.set
            (header.hash_to_directory_index (hash k))
            (some st.new_page.2)).getD
            (header.hash_to_directory_index (hash k)) none
            = some st.new_page.2
          exact getD_set_self _ _ _ _ (by
            rw [hhlen]
            exact Nat.mod_lt _ (Nat.pos_pow_of_pos _ (by omega)))
        have hsd' : st'.store st.new_page.2
            = some (PageData.directory dir') := hPs (Or.inr (by simp))
        obtain ⟨bpid, bkt, hbr, hbs, hbg⟩ := hPr [] k v rfl
        simp only [ExtendibleHashTable.get, hsh', hdi', hsd', hbr,
          hbs, hbg]

/-- Concrete state for the C1 witness: a fresh table (directory max
depth 6, bucket capacity 2) over the identity hash. -/
def c1_table : ExtendibleHashTable × PageStore Nat Nat :=
  ExtendibleHashTable.new Nat Nat 6 2

/-- The store after inserting the pair `(5, 7)` into the fresh table. -/
def c1_after : PageStore Nat Nat :=
  (ExtendibleHashTable.insert (fun n => n) c1_table.1 9 5 7
    c1_table.2).getD ⟨fun _ => none, 0⟩

theorem insert_get_roundtrip_c1_witness :
    ExtendibleHashTable.get (fun n => n) c1_table.1 c1_after 5
      = some (some 7) :=
  insert_get_roundtrip_c1 (fun n => n) c1_table.1 c1_table.2 c1_after
    9 5 7 (by rfl) (by rfl)
